import Mathlib

/-!
# zplugin — the plugin registry of `plugin.go`

A shallow embedding of `PluginManage` and its six public methods.

* A `*plugin_entry` is an index into `PluginManage.heap`; the same pointer is
  stored in an element of `plugins` and, while the entry is on, in an element
  of `pluginons`, so the status lives in one place exactly as in the Go code.
* `container/list` (Go standard library) is modelled by what it implements: a
  list is the sequence of its elements, a `*list.Element` is an address with
  the `Value` stored in it, `e.list` is the list that currently contains `e`
  (none after `Remove`, which clears `next`, `prev` and `list`), and
  `Next`/`Prev` answer `nil` for an element that is in no list.
* A Go `map[string]*list.Element` is a partial function on names.
* The plugin hooks are external: an `Oracle` decides the result of each
  `On()` call from the log of all hook calls made so far and the receiver.
  The log `hooks` is carried in the state to speak about hook invocations.
* A nil dereference (`Remove(nil)`, a dangling entry pointer) is the fault
  `nilDeref`; the two `for` loops run on fuel and report `fuel` if it runs out.
  The mutex is not modelled: every method body runs atomically.
* `refNames` and `refPlugin` are reference models written from the specification; the
  theorems compare them with what the code computes. `UnRegistryPlugin_atOff` is the body of
  `UnRegistryPlugin` cut at the hook call, to speak about the registry at that moment.
-/

namespace zplugin

/-- A value of the interface `Pluginer`; only the identity of the plugin object matters. -/
abbrev Pluginer := Nat

/-- The type `Status` with its two constants. -/
inductive Status where
  | StatusOff
  | StatusOn
deriving DecidableEq, Repr

/-- The struct `plugin_entry`. -/
structure plugin_entry where
  name : String
  plugin : Pluginer
  status : Status
deriving DecidableEq, Repr

/-- A `*list.Element`: its address and the `*plugin_entry` held in `Value`. -/
structure Element where
  addr : Nat
  Value : Nat
deriving DecidableEq, Repr

/-- One hook invocation: `pe.plugin.On()` with its result, or `pe.plugin.Off()`. -/
inductive HookEvent where
  | On (pe : Nat) (err : Option String)
  | Off (pe : Nat)
deriving DecidableEq, Repr

/-- The behaviour of the plugins: the result of an `On()` call (`none` is a nil error,
`some text` an error whose `Error()` is `text`), given the hook log so far and the receiver. -/
abbrev Oracle := List HookEvent → Pluginer → Option String

/-- A Go `map[string]*list.Element`. -/
abbrev ElMap := String → Option Element

/-- The statement `mm[name] = el`. -/
def ElMap.set (mm : ElMap) (name : String) (el : Element) : ElMap :=
  fun k => if k = name then some el else mm k

/-- The statement `delete(mm, name)`. -/
def ElMap.delete (mm : ElMap) (name : String) : ElMap :=
  fun k => if k = name then none else mm k

/-- The struct `PluginManage`, with the entry heap, the element allocator and the hook log. -/
structure PluginManage where
  heap : List plugin_entry
  elems : Nat
  plugins : List Element
  plugin_mm : ElMap
  pluginons : List Element
  pluginon_mm : ElMap
  hooks : List HookEvent

/-- Runtime faults of the model. -/
inductive Fault where
  | nilDeref
  | fuel
deriving DecidableEq, Repr

/-- The function `New`. -/
def New : PluginManage :=
  { heap := [], elems := 0, plugins := [], plugin_mm := fun _ => none,
    pluginons := [], pluginon_mm := fun _ => none, hooks := [] }

/-- Successor of `e` in the sequence `l` (`e.next`, nil at the end). -/
def nextOf : List Element → Element → Option Element
  | [], _ => none
  | x :: rest, e => if x = e then rest.head? else nextOf rest e

/-- Predecessor of `e` in the sequence `l` (`e.prev`, nil at the front). -/
def prevOf : List Element → Element → Option Element
  | [], _ => none
  | [_], _ => none
  | x :: y :: rest, e =>
    if x = e then none else if y = e then some x else prevOf (y :: rest) e

/-- The field `e.list`: the list that currently contains `e`, if any. -/
def Element.list (m : PluginManage) (e : Element) : Option (List Element) :=
  if e ∈ m.plugins then some m.plugins
  else if e ∈ m.pluginons then some m.pluginons
  else none

/-- The method `(*Element).Next`. -/
def Element.Next (m : PluginManage) (e : Element) : Option Element :=
  match e.list m with
  | none => none
  | some l => nextOf l e

/-- The method `(*Element).Prev`. -/
def Element.Prev (m : PluginManage) (e : Element) : Option Element :=
  match e.list m with
  | none => none
  | some l => prevOf l e

/-- The message of `fmt.Errorf("插件名<%s>已被注册", name)`. -/
def dupMsg (name : String) : String := "插件名<" ++ name ++ ">已被注册"

/-- The message of `fmt.Errorf("插件<%s>启动失败: %s", name, err)`. -/
def onFailMsg (name err : String) : String := "插件<" ++ name ++ ">启动失败: " ++ err

/-- The message of `fmt.Errorf("插件<%s>不存在", name)`. -/
def notFoundMsg (name : String) : String := "插件<" ++ name ++ ">不存在"

/-- The method `on` (a reserved word in Lean, hence `on_`): call the hook; on success mark
the entry on, push it to the back of `pluginons` and record the new element under its name. -/
def on_ (o : Oracle) (pe : Nat) (m : PluginManage) :
    Except Fault (Option String × PluginManage) :=
  match m.heap[pe]? with
  | none => .error .nilDeref
  | some e =>
    match o m.hooks e.plugin with
    | some err => .ok (some err, { m with hooks := m.hooks ++ [.On pe (some err)] })
    | none =>
      let el : Element := { addr := m.elems, Value := pe }
      .ok (none,
        { m with
          hooks := m.hooks ++ [.On pe none]
          heap := m.heap.set pe { e with status := .StatusOn }
          elems := m.elems + 1
          pluginons := m.pluginons ++ [el]
          pluginon_mm := m.pluginon_mm.set e.name el })

/-- The method `off`: remove the entry's element from `pluginons` and from the index, mark
the entry off, call the hook. -/
def off (pe : Nat) (m : PluginManage) : Except Fault PluginManage :=
  match m.heap[pe]? with
  | none => .error .nilDeref
  | some e =>
    match m.pluginon_mm e.name with
    | none => .error .nilDeref
    | some el =>
      .ok { m with
            pluginons := m.pluginons.erase el
            pluginon_mm := m.pluginon_mm.delete e.name
            heap := m.heap.set pe { e with status := .StatusOff }
            hooks := m.hooks ++ [.Off pe] }

/-- The method `RegistryPlugin`. -/
def RegistryPlugin (o : Oracle) (name : String) (plugin : Pluginer) (now : Bool)
    (m : PluginManage) : Except Fault (Option String × PluginManage) :=
  match m.plugin_mm name with
  | some _ => .ok (some (dupMsg name), m)
  | none =>
    let pe := m.heap.length
    let el : Element := { addr := m.elems, Value := pe }
    let m1 : PluginManage :=
      { m with
        heap := m.heap ++ [{ name := name, plugin := plugin, status := .StatusOff }]
        elems := m.elems + 1
        plugins := m.plugins ++ [el]
        plugin_mm := m.plugin_mm.set name el }
    if now then
      match on_ o pe m1 with
      | .error f => .error f
      | .ok (some err, m2) => .ok (some (onFailMsg name err), m2)
      | .ok (none, m2) => .ok (none, m2)
    else .ok (none, m1)

/-- The method `UnRegistryPlugin`. -/
def UnRegistryPlugin (name : String) (m : PluginManage) :
    Except Fault (Option String × PluginManage) :=
  match m.plugin_mm name with
  | none => .ok (some (notFoundMsg name), m)
  | some el =>
    match m.heap[el.Value]? with
    | none => .error .nilDeref
    | some pe =>
      let m1 : PluginManage :=
        { m with
          plugins := m.plugins.erase el
          plugin_mm := m.plugin_mm.delete pe.name }
      if pe.status = .StatusOn then
        match off el.Value m1 with
        | .error f => .error f
        | .ok m2 => .ok (none, m2)
      else .ok (none, m1)

/-- The `for` loop of the method `On`, with `el` the loop variable. -/
def OnLoop (o : Oracle) : Nat → Option Element → PluginManage →
    Except Fault (Option String × PluginManage)
  | 0, _, _ => .error .fuel
  | _ + 1, none, m => .ok (none, m)
  | fuel + 1, some el, m =>
    match m.heap[el.Value]? with
    | none => .error .nilDeref
    | some pe =>
      if pe.status = .StatusOff then
        match on_ o el.Value m with
        | .error f => .error f
        | .ok (some err, m1) => .ok (some (onFailMsg pe.name err), m1)
        | .ok (none, m1) => OnLoop o fuel (el.Next m1) m1
      else OnLoop o fuel (el.Next m) m

/-- The method `On`: the loop started at `m.plugins.Front()`. -/
def On (o : Oracle) (m : PluginManage) : Except Fault (Option String × PluginManage) :=
  OnLoop o (m.plugins.length + 1) m.plugins.head? m

/-- The `for` loop of the method `Off`, with `el` the loop variable. -/
def OffLoop : Nat → Option Element → PluginManage → Except Fault PluginManage
  | 0, _, _ => .error .fuel
  | _ + 1, none, m => .ok m
  | fuel + 1, some el, m =>
    match m.heap[el.Value]? with
    | none => .error .nilDeref
    | some pe =>
      if pe.status = .StatusOn then
        match off el.Value m with
        | .error f => .error f
        | .ok m1 => OffLoop fuel (el.Prev m1) m1
      else OffLoop fuel (el.Prev m) m

/-- The method `Off`: the loop started at `m.pluginons.Back()`. -/
def Off (m : PluginManage) : Except Fault PluginManage :=
  OffLoop (m.pluginons.length + 1) m.pluginons.getLast? m

/-- The method `Get`: the plugin and the error. -/
def Get (name : String) (m : PluginManage) :
    Except Fault (Option Pluginer × Option String) :=
  match m.plugin_mm name with
  | none => .ok (none, some (notFoundMsg name))
  | some el =>
    match m.heap[el.Value]? with
    | none => .error .nilDeref
    | some pe => .ok (some pe.plugin, none)

/-- The method `IsOn`: the flag and the error. -/
def IsOn (name : String) (m : PluginManage) : Except Fault (Bool × Option String) :=
  match m.plugin_mm name with
  | none => .ok (false, some (notFoundMsg name))
  | some el =>
    match m.heap[el.Value]? with
    | none => .error .nilDeref
    | some pe => .ok (decide (pe.status = .StatusOn), none)

/-- A call of a public method, with the plugin behaviour during the call. -/
inductive Call where
  | RegistryPlugin (o : Oracle) (name : String) (plugin : Pluginer) (now : Bool)
  | UnRegistryPlugin (name : String)
  | On (o : Oracle)
  | Off
  | Get (name : String)
  | IsOn (name : String)

/-- The state after one call; a call that returns an error still yields a state. -/
def Call.exec : Call → PluginManage → Except Fault PluginManage
  | .RegistryPlugin o name plugin now, m => (zplugin.RegistryPlugin o name plugin now m).map Prod.snd
  | .UnRegistryPlugin name, m => (zplugin.UnRegistryPlugin name m).map Prod.snd
  | .On o, m => (zplugin.On o m).map Prod.snd
  | .Off, m => zplugin.Off m
  | .Get name, m => (zplugin.Get name m).map fun _ => m
  | .IsOn name, m => (zplugin.IsOn name m).map fun _ => m

/-- The state after a sequence of calls. -/
def run : List Call → PluginManage → Except Fault PluginManage
  | [], m => .ok m
  | c :: cs, m =>
    match c.exec m with
    | .error f => .error f
    | .ok m1 => run cs m1

/-- A registry state reachable from `New()` by public method calls. -/
def Reachable (m : PluginManage) : Prop := ∃ cs : List Call, run cs New = .ok m

/-- The element's entry is on. -/
def isOnEl (m : PluginManage) (e : Element) : Prop :=
  ∃ pe, m.heap[e.Value]? = some pe ∧ pe.status = .StatusOn

/-- The state after the calls `cs` on a fresh registry (`New()` itself if a call faults). -/
def stateOf (cs : List Call) : PluginManage :=
  match run cs New with
  | .ok m => m
  | .error _ => New

/-- The text `part` occurs in the message `msg`. -/
def msgContains (msg part : String) : Prop := part.data <:+: msg.data

/-- The entry of the element is registered under `name`. -/
def hasName (m : PluginManage) (e : Element) (name : String) : Prop :=
  ∃ pe, m.heap[e.Value]? = some pe ∧ pe.name = name

/-- The bookkeeping invariant of the registry: element addresses are below the allocator and
occur once, the two lists share no element, each index maps a name exactly to the element of
its list whose entry bears that name, and the elements of `pluginons` are the registered
entries that are on. -/
structure Inv (m : PluginManage) : Prop where
  plugins_fresh : ∀ e ∈ m.plugins, e.addr < m.elems
  ons_fresh : ∀ e ∈ m.pluginons, e.addr < m.elems
  plugins_nodup : m.plugins.Nodup
  ons_nodup : m.pluginons.Nodup
  disjoint : ∀ e ∈ m.plugins, e ∉ m.pluginons
  plugins_entry : ∀ e ∈ m.plugins, ∃ pe, m.heap[e.Value]? = some pe
  mm_iff : ∀ name e, m.plugin_mm name = some e ↔ e ∈ m.plugins ∧ hasName m e name
  onmm_iff : ∀ name e, m.pluginon_mm name = some e ↔ e ∈ m.pluginons ∧ hasName m e name
  ons_on : ∀ e ∈ m.pluginons, (∃ x ∈ m.plugins, x.Value = e.Value) ∧ isOnEl m e
  on_ons : ∀ x ∈ m.plugins, isOnEl m x → ∃ e ∈ m.pluginons, e.Value = x.Value

/-- The entry of the element is off in `m`, as a test. -/
def wasOff (m : PluginManage) (x : Element) : Bool :=
  match m.heap[x.Value]? with
  | some q => decide (q.status = .StatusOff)
  | none => false

/-- The elements of `els` whose entry is off in `m`, in the order of `els`. -/
def offEls (m : PluginManage) (els : List Element) : List Element := els.filter (wasOff m)

/-- The log entry of a successful `On()` call on the entry of `x`. -/
def onOk (x : Element) : HookEvent := .On x.Value none

/-- The state `m1` is `m` after the activation sequence ran, with success, on those elements
of `done` whose entry was off in `m`, in the order of `done`. -/
structure Walked (m : PluginManage) (done : List Element) (m1 : PluginManage) : Prop where
  plugins_eq : m1.plugins = m.plugins
  mm_eq : m1.plugin_mm = m.plugin_mm
  all_on : ∀ x ∈ done, isOnEl m1 x
  frame : ∀ i, (∀ x ∈ done, x.Value ≠ i) → m1.heap[i]? = m.heap[i]?
  hooks_eq : m1.hooks = m.hooks ++ (offEls m done).map onOk
  ons_eq : ∃ news, m1.pluginons = m.pluginons ++ news ∧
    news.map Element.Value = (offEls m done).map Element.Value

/-- The log entries of the hook calls that `On()` makes on the elements `d` when each of them
succeeds, then the failing call on `e`. -/
def failedWalk (m : PluginManage) (d : List Element) (e : Element) (err : String) :
    List HookEvent :=
  (offEls m d).map onOk ++ [.On e.Value (some err)]

/-- Nothing in the registry bears `name`: no element of either list points to an entry of
that name, the name is a key of neither index, and `Get` and `IsOn` answer not-found. -/
def Forgotten (name : String) (m : PluginManage) : Prop :=
  (∀ z ∈ m.plugins, ¬ hasName m z name) ∧ m.plugin_mm name = none ∧
  (∀ z ∈ m.pluginons, ¬ hasName m z name) ∧ m.pluginon_mm name = none ∧
  Get name m = .ok (none, some (notFoundMsg name)) ∧
  IsOn name m = .ok (false, some (notFoundMsg name))

/-- A plugin behaviour under which every `On()` succeeds. -/
def okOracle : Oracle := fun _ _ => none

/-- A plugin behaviour under which `On()` of the plugin `p` fails with `text`, all others succeed. -/
def failOracle (p : Pluginer) (text : String) : Oracle :=
  fun _ q => if q = p then some text else none

/-- Plugins `1`, `2` registered as `A`, `B` and started at once. -/
def callsABon : List Call :=
  [.RegistryPlugin okOracle "A" 1 true, .RegistryPlugin okOracle "B" 2 true]

/-- Plugins `1`, `2`, `3` registered as `A`, `B`, `C`, not started. -/
def callsABC : List Call :=
  [.RegistryPlugin okOracle "A" 1 false, .RegistryPlugin okOracle "B" 2 false,
   .RegistryPlugin okOracle "C" 3 false]

/-- The calls `callsABC` followed by `On()` while the hook of plugin `2` fails. -/
def callsABCfail : List Call := callsABC ++ [Call.On (failOracle 2 "boom")]

/-- The calls `callsABon` followed by `Off()`: `A` is on, `B` is registered and off. -/
def callsABonOff : List Call := callsABon ++ [Call.Off]

/-- The calls `callsABC` followed by an `On()` in which every hook succeeds. -/
def callsABCon : List Call := callsABC ++ [Call.On okOracle]

/-- The statements of `off` before its last one, the hook call `pe.plugin.Off()`: the element
is removed from `pluginons` and from the index and the entry is marked off. -/
def offBefore (pe : Nat) (m : PluginManage) : Except Fault PluginManage :=
  match m.heap[pe]? with
  | none => .error .nilDeref
  | some e =>
    match m.pluginon_mm e.name with
    | none => .error .nilDeref
    | some el =>
      .ok { m with
            pluginons := m.pluginons.erase el
            pluginon_mm := m.pluginon_mm.delete e.name
            heap := m.heap.set pe { e with status := .StatusOff } }

/-- The registry at the moment `UnRegistryPlugin(name)` calls the hook `pe.plugin.Off()`:
the body of the method and of `off` up to that call, `none` when the method returns without
reaching the call. -/
def UnRegistryPlugin_atOff (name : String) (m : PluginManage) :
    Except Fault (Option PluginManage) :=
  match m.plugin_mm name with
  | none => .ok none
  | some el =>
    match m.heap[el.Value]? with
    | none => .error .nilDeref
    | some pe =>
      let m1 : PluginManage :=
        { m with
          plugins := m.plugins.erase el
          plugin_mm := m.plugin_mm.delete pe.name }
      if pe.status = .StatusOn then
        match offBefore el.Value m1 with
        | .error f => .error f
        | .ok m2 => .ok (some m2)
      else .ok none

/-- The status of the entry at `pe` (off for a pointer that is not allocated yet). -/
def statusAt (m : PluginManage) (pe : Nat) : Status :=
  match m.heap[pe]? with
  | some q => q.status
  | none => .StatusOff

/-- The life cycle of one entry, `Off --On() succeeds--> On`, `Off --On() fails--> Off`,
`On --Off()--> Off`: the status after the hook call `ev` when the status before it is `s`, or
`none` when `ev` is a call on this entry that its status does not allow (`On()` on an entry
that is on, `Off()` on an entry that is off). Calls on other entries change nothing. -/
def logStep (pe : Nat) (s : Status) : HookEvent → Option Status
  | .On q res =>
    if q = pe then
      if s = .StatusOff then
        match res with
        | none => some .StatusOn
        | some _ => some .StatusOff
      else none
    else some s
  | .Off q =>
    if q = pe then
      if s = .StatusOn then some .StatusOff else none
    else some s

/-- The status of the entry `pe` after the hook calls of `log`, started in status `s`; `none`
when one of the calls is not allowed by the life cycle. -/
def logRun (pe : Nat) : Status → List HookEvent → Option Status
  | s, [] => some s
  | s, ev :: rest =>
    match logStep pe s ev with
    | none => none
    | some s1 => logRun pe s1 rest

/-- The successful `On()` calls (`true`) and the `Off()` calls (`false`) on the entry `pe`,
in the order of the log. -/
def lifecycle (pe : Nat) : List HookEvent → List Bool
  | [] => []
  | .On q none :: rest => if q = pe then true :: lifecycle pe rest else lifecycle pe rest
  | .On _ (some _) :: rest => lifecycle pe rest
  | .Off q :: rest => if q = pe then false :: lifecycle pe rest else lifecycle pe rest

/-- The list alternates and starts with `expect`. -/
def alternates : Bool → List Bool → Bool
  | _, [] => true
  | expect, b :: bs => (b == expect) && alternates (!expect) bs

/-- The plugin that `Get(name)` finds: the plugin field of the entry that `plugin_mm` maps
the name to. -/
def regPlugin (m : PluginManage) (name : String) : Option Pluginer :=
  match m.plugin_mm name with
  | none => none
  | some el =>
    match m.heap[el.Value]? with
    | none => none
    | some pe => some pe.plugin

/-- Reference model of the registered names, in the words of the specification: a name is
inserted by a `RegistryPlugin` call on a name that is not in the set and deleted by an
`UnRegistryPlugin` call on a name that is in the set; no other call changes the set. -/
def refNameStep (s : Finset String) : Call → Finset String
  | .RegistryPlugin _ name _ _ => if name ∈ s then s else insert name s
  | .UnRegistryPlugin name => if name ∈ s then s.erase name else s
  | _ => s

/-- The reference set of names after the calls `cs`, started from the set `s`. -/
def refNamesFrom (s : Finset String) : List Call → Finset String
  | [] => s
  | c :: cs => refNamesFrom (refNameStep s c) cs

/-- The reference set of names after the calls `cs` on a fresh registry. -/
def refNames (cs : List Call) : Finset String := refNamesFrom ∅ cs

/-- Reference model of the plugin registered under each name, in the words of the
specification: a `RegistryPlugin` call on a name that is not registered records its plugin, a
call on a registered name is discarded, `UnRegistryPlugin` forgets the name. -/
def refPluginStep (f : String → Option Pluginer) : Call → String → Option Pluginer
  | .RegistryPlugin _ name p _ => fun k =>
    if k = name then
      match f name with
      | some q => some q
      | none => some p
    else f k
  | .UnRegistryPlugin name => fun k => if k = name then none else f k
  | _ => f

/-- The reference plugin of each name after the calls `cs`, started from `f`. -/
def refPluginFrom (f : String → Option Pluginer) : List Call → String → Option Pluginer
  | [] => f
  | c :: cs => refPluginFrom (refPluginStep f c) cs

/-- The reference plugin of each name after the calls `cs` on a fresh registry. -/
def refPlugin (cs : List Call) : String → Option Pluginer := refPluginFrom (fun _ => none) cs

/-! ## Messages -/

theorem onFailMsg_contains_name (name err : String) : msgContains (onFailMsg name err) name :=
  ⟨"插件<".data, (">启动失败: " ++ err).data, by simp [onFailMsg, String.data_append]⟩

theorem onFailMsg_contains_err (name err : String) : msgContains (onFailMsg name err) err :=
  ⟨("插件<" ++ name ++ ">启动失败: ").data, [], by simp [onFailMsg, String.data_append]⟩

/-! ## Calls that are rejected -/

/-- C5: registering a name that is already a key of `plugin_mm` returns the duplicate-name
error for either value of the flag and hands back the very same state: no hook is logged, both
lists, both indices and the heap of entries are untouched. -/
theorem RegistryPlugin_duplicate (o : Oracle) (name : String) (p : Pluginer) (now : Bool)
    (m : PluginManage) (h : m.plugin_mm name ≠ none) :
    RegistryPlugin o name p now m = .ok (some (dupMsg name), m) := by
  unfold RegistryPlugin
  cases hk : m.plugin_mm name with
  | none => exact absurd hk h
  | some el => rfl

theorem RegistryPlugin_duplicate_witness :
    (stateOf callsABon).plugin_mm "A" ≠ none ∧
      RegistryPlugin (failOracle 7 "boom") "A" 7 true (stateOf callsABon)
        = .ok (some (dupMsg "A"), stateOf callsABon) :=
  ⟨by decide, RegistryPlugin_duplicate (failOracle 7 "boom") "A" 7 true (stateOf callsABon)
    (by decide)⟩

/-- C8: unregistering a name that is no key of `plugin_mm` returns the not-found error and
hands back the very same state: no hook is logged and nothing is removed. -/
theorem UnRegistryPlugin_unknown (name : String) (m : PluginManage)
    (h : m.plugin_mm name = none) :
    UnRegistryPlugin name m = .ok (some (notFoundMsg name), m) := by
  unfold UnRegistryPlugin
  rw [h]

theorem UnRegistryPlugin_unknown_witness :
    (stateOf callsABon).plugin_mm "Z" = none ∧
      UnRegistryPlugin "Z" (stateOf callsABon)
        = .ok (some (notFoundMsg "Z"), stateOf callsABon) :=
  ⟨by decide, UnRegistryPlugin_unknown "Z" (stateOf callsABon) (by decide)⟩

theorem heap_fresh_lookup (heap : List plugin_entry) (x : plugin_entry) :
    (heap ++ [x])[heap.length]? = some x := by
  simp

/-- C6: for a name that is no key of `plugin_mm` and a plugin whose `On()` fails with `err`,
`RegistryPlugin(name, p, true)` returns the start-failure error, whose message contains the
name and `err`; the new entry is at the back of `plugins` with status off, `Get` returns `p`,
`IsOn` returns false, and `pluginons` and `pluginon_mm` are as before. -/
theorem RegistryPlugin_on_fails (o : Oracle) (name : String) (p : Pluginer) (err : String)
    (m : PluginManage) (hfree : m.plugin_mm name = none) (hfail : o m.hooks p = some err) :
    ∃ m', RegistryPlugin o name p true m = .ok (some (onFailMsg name err), m') ∧
      msgContains (onFailMsg name err) name ∧ msgContains (onFailMsg name err) err ∧
      m'.plugins = m.plugins ++ [{ addr := m.elems, Value := m.heap.length }] ∧
      m'.heap = m.heap ++ [{ name := name, plugin := p, status := .StatusOff }] ∧
      m'.plugin_mm = m.plugin_mm.set name { addr := m.elems, Value := m.heap.length } ∧
      Get name m' = .ok (some p, none) ∧ IsOn name m' = .ok (false, none) ∧
      m'.pluginons = m.pluginons ∧ m'.pluginon_mm = m.pluginon_mm ∧
      m'.hooks = m.hooks ++ [.On m.heap.length (some err)] := by
  have h : RegistryPlugin o name p true m = .ok (some (onFailMsg name err),
      { m with
        heap := m.heap ++ [{ name := name, plugin := p, status := .StatusOff }]
        elems := m.elems + 1
        plugins := m.plugins ++ [{ addr := m.elems, Value := m.heap.length }]
        plugin_mm := m.plugin_mm.set name { addr := m.elems, Value := m.heap.length }
        hooks := m.hooks ++ [.On m.heap.length (some err)] }) := by
    simp only [RegistryPlugin, hfree, on_, heap_fresh_lookup, hfail, if_true]
  refine ⟨_, h, onFailMsg_contains_name name err, onFailMsg_contains_err name err, ?_⟩
  simp [Get, IsOn, ElMap.set]

theorem RegistryPlugin_on_fails_witness :
    (stateOf callsABon).plugin_mm "C" = none ∧
    failOracle 3 "boom" (stateOf callsABon).hooks 3 = some "boom" ∧
    ∃ m', RegistryPlugin (failOracle 3 "boom") "C" 3 true (stateOf callsABon)
        = .ok (some (onFailMsg "C" "boom"), m') ∧
      msgContains (onFailMsg "C" "boom") "C" ∧ msgContains (onFailMsg "C" "boom") "boom" ∧
      m'.plugins = (stateOf callsABon).plugins ++
        [{ addr := (stateOf callsABon).elems, Value := (stateOf callsABon).heap.length }] ∧
      m'.heap = (stateOf callsABon).heap ++ [{ name := "C", plugin := 3, status := .StatusOff }] ∧
      m'.plugin_mm = (stateOf callsABon).plugin_mm.set "C"
        { addr := (stateOf callsABon).elems, Value := (stateOf callsABon).heap.length } ∧
      Get "C" m' = .ok (some 3, none) ∧ IsOn "C" m' = .ok (false, none) ∧
      m'.pluginons = (stateOf callsABon).pluginons ∧
      m'.pluginon_mm = (stateOf callsABon).pluginon_mm ∧
      m'.hooks = (stateOf callsABon).hooks ++ [.On (stateOf callsABon).heap.length (some "boom")] :=
  ⟨by decide, by decide,
    RegistryPlugin_on_fails (failOracle 3 "boom") "C" 3 "boom" (stateOf callsABon)
      (by decide) (by decide)⟩

/-- C7: for a name that is no key of `plugin_mm`, `RegistryPlugin(name, p, false)` returns
nil, logs no hook, puts one new element holding the entry `(name, p, StatusOff)` at the back of
`plugins` behind the earlier elements, and leaves `pluginons` and `pluginon_mm` as they were;
`Get` then returns `p` and `IsOn` false. With the flag set and `p.On()` succeeding the call
returns nil as well, the entry is on and its new element is the back of `pluginons`. -/
theorem RegistryPlugin_fresh (o : Oracle) (name : String) (p : Pluginer) (m : PluginManage)
    (hfree : m.plugin_mm name = none) :
    (∃ m', RegistryPlugin o name p false m = .ok (none, m') ∧
      m'.hooks = m.hooks ∧
      m'.plugins = m.plugins ++ [{ addr := m.elems, Value := m.heap.length }] ∧
      m'.heap = m.heap ++ [{ name := name, plugin := p, status := .StatusOff }] ∧
      m'.plugin_mm = m.plugin_mm.set name { addr := m.elems, Value := m.heap.length } ∧
      m'.pluginons = m.pluginons ∧ m'.pluginon_mm = m.pluginon_mm ∧
      Get name m' = .ok (some p, none) ∧ IsOn name m' = .ok (false, none)) ∧
    (o m.hooks p = none →
      ∃ m', RegistryPlugin o name p true m = .ok (none, m') ∧
        m'.hooks = m.hooks ++ [.On m.heap.length none] ∧
        m'.plugins = m.plugins ++ [{ addr := m.elems, Value := m.heap.length }] ∧
        m'.heap = m.heap ++ [{ name := name, plugin := p, status := .StatusOn }] ∧
        m'.plugin_mm = m.plugin_mm.set name { addr := m.elems, Value := m.heap.length } ∧
        m'.pluginons = m.pluginons ++ [{ addr := m.elems + 1, Value := m.heap.length }] ∧
        m'.pluginon_mm = m.pluginon_mm.set name { addr := m.elems + 1, Value := m.heap.length } ∧
        Get name m' = .ok (some p, none) ∧ IsOn name m' = .ok (true, none)) := by
  constructor
  · have h : RegistryPlugin o name p false m = .ok (none,
        { m with
          heap := m.heap ++ [{ name := name, plugin := p, status := .StatusOff }]
          elems := m.elems + 1
          plugins := m.plugins ++ [{ addr := m.elems, Value := m.heap.length }]
          plugin_mm := m.plugin_mm.set name { addr := m.elems, Value := m.heap.length } }) := by
      simp only [RegistryPlugin, hfree, Bool.false_eq_true, if_false]
    refine ⟨_, h, ?_⟩
    simp [Get, IsOn, ElMap.set]
  · intro hok
    have h : RegistryPlugin o name p true m = .ok (none,
        { m with
          heap := m.heap ++ [{ name := name, plugin := p, status := .StatusOn }]
          elems := m.elems + 1 + 1
          plugins := m.plugins ++ [{ addr := m.elems, Value := m.heap.length }]
          plugin_mm := m.plugin_mm.set name { addr := m.elems, Value := m.heap.length }
          pluginons := m.pluginons ++ [{ addr := m.elems + 1, Value := m.heap.length }]
          pluginon_mm :=
            m.pluginon_mm.set name { addr := m.elems + 1, Value := m.heap.length }
          hooks := m.hooks ++ [.On m.heap.length none] }) := by
      simp [RegistryPlugin, hfree, on_, hok]
    refine ⟨_, h, ?_⟩
    simp [Get, IsOn, ElMap.set]

theorem RegistryPlugin_fresh_witness :
    (stateOf callsABon).plugin_mm "C" = none ∧
    (∃ m', RegistryPlugin okOracle "C" 3 false (stateOf callsABon) = .ok (none, m') ∧
      m'.hooks = (stateOf callsABon).hooks ∧
      m'.plugins = (stateOf callsABon).plugins ++ [{ addr := 4, Value := 2 }] ∧
      m'.pluginons = (stateOf callsABon).pluginons ∧
      Get "C" m' = .ok (some 3, none) ∧ IsOn "C" m' = .ok (false, none)) ∧
    (∃ m', RegistryPlugin okOracle "C" 3 true (stateOf callsABon) = .ok (none, m') ∧
      m'.pluginons = (stateOf callsABon).pluginons ++ [{ addr := 5, Value := 2 }] ∧
      Get "C" m' = .ok (some 3, none) ∧ IsOn "C" m' = .ok (true, none)) := by
  have h := RegistryPlugin_fresh okOracle "C" 3 (stateOf callsABon) (by decide)
  obtain ⟨⟨m1, h1, h2, h3, _, _, h6, _, h8, h9⟩, hon⟩ := h
  obtain ⟨m2, k1, _, _, _, _, k6, _, k8, k9⟩ := hon rfl
  exact ⟨by decide, ⟨m1, h1, h2, h3, h6, h8, h9⟩, ⟨m2, k1, k6, k8, k9⟩⟩

/-! ## `Off()` stops after the first element it removes -/

/-- C1: evaluation of `Off()` after `A` and `B` were registered and started: only `B`, the back
of `pluginons`, is turned off; `A` is still on, still in `pluginons` and still a key of
`pluginon_mm`, because `Prev()` of the element just removed is nil and ends the loop. -/
theorem Off_keeps_earlier_plugin_on :
    ∃ m, Off (stateOf callsABon) = .ok m ∧
      IsOn "A" m = .ok (true, none) ∧ IsOn "B" m = .ok (false, none) ∧
      m.pluginons = [{ addr := 1, Value := 0 }] ∧
      m.pluginon_mm "A" = some { addr := 1, Value := 0 } :=
  ⟨_, rfl, rfl, rfl, rfl, rfl⟩

/-- C2: evaluation of `Off()` after `A`, `B`, `C` were registered and then started by `On()`
(entries `0`, `1`, `2`): the call makes the single hook call `C.Off()`, not `C`, `B`, `A`. -/
theorem Off_calls_one_hook :
    (stateOf (callsABC ++ [.On okOracle])).pluginons.map Element.Value = [0, 1, 2] ∧
    ∃ m, Off (stateOf (callsABC ++ [.On okOracle])) = .ok m ∧
      m.hooks = (stateOf (callsABC ++ [.On okOracle])).hooks ++ [.Off 2] ∧
      m.pluginons.map Element.Value = [0, 1] :=
  ⟨rfl, _, rfl, rfl, rfl⟩

/-! ## The heap of entries -/

theorem lookup_set_self (heap : List plugin_entry) (i : Nat) (e new : plugin_entry)
    (h : heap[i]? = some e) : (heap.set i new)[i]? = some new := by
  obtain ⟨hlt, -⟩ := List.getElem?_eq_some_iff.mp h
  exact List.getElem?_set_self hlt

theorem lookup_set_other (heap : List plugin_entry) (i j : Nat) (new : plugin_entry)
    (h : j ≠ i) : (heap.set i new)[j]? = heap[j]? :=
  List.getElem?_set_ne (Ne.symm h)

theorem lookup_append_old (heap : List plugin_entry) (i : Nat) (e new : plugin_entry)
    (h : heap[i]? = some e) : (heap ++ [new])[i]? = some e := by
  obtain ⟨hlt, -⟩ := List.getElem?_eq_some_iff.mp h
  rw [List.getElem?_append_left hlt, h]

theorem lookup_lt (heap : List plugin_entry) (i : Nat) (e : plugin_entry)
    (h : heap[i]? = some e) : i < heap.length :=
  (List.getElem?_eq_some_iff.mp h).1

/-- Changing the status of one entry changes no name. -/
theorem name_lookup_set (heap : List plugin_entry) (i : Nat) (e : plugin_entry) (s : Status)
    (h : heap[i]? = some e) (j : Nat) (n : String) :
    (∃ q, (heap.set i { e with status := s })[j]? = some q ∧ q.name = n) ↔
      ∃ q, heap[j]? = some q ∧ q.name = n := by
  by_cases hj : j = i
  · subst hj
    rw [lookup_set_self heap j e _ h, h]
    constructor
    · rintro ⟨q, hq, hn⟩
      exact ⟨e, rfl, by cases hq; exact hn⟩
    · rintro ⟨q, hq, hn⟩
      exact ⟨_, rfl, by cases hq; exact hn⟩
  · rw [lookup_set_other heap i j _ hj]

/-! ## Consequences of the invariant -/

theorem Inv.name_inj {m : PluginManage} (hI : Inv m) {x y : Element} {n : String}
    (hx : x ∈ m.plugins) (hy : y ∈ m.plugins) (hxn : hasName m x n) (hyn : hasName m y n) :
    x = y := by
  have h1 := (hI.mm_iff n x).mpr ⟨hx, hxn⟩
  have h2 := (hI.mm_iff n y).mpr ⟨hy, hyn⟩
  rw [h1] at h2
  exact Option.some.inj h2

theorem Inv.value_inj {m : PluginManage} (hI : Inv m) {x y : Element}
    (hx : x ∈ m.plugins) (hy : y ∈ m.plugins) (hv : x.Value = y.Value) : x = y := by
  obtain ⟨pe, hpe⟩ := hI.plugins_entry x hx
  exact hI.name_inj hx hy ⟨pe, hpe, rfl⟩ ⟨pe, hv ▸ hpe, rfl⟩

theorem Inv.on_value_inj {m : PluginManage} (hI : Inv m) {x y : Element}
    (hx : x ∈ m.pluginons) (hy : y ∈ m.pluginons) (hv : x.Value = y.Value) : x = y := by
  obtain ⟨pe, hpe, -⟩ := (hI.ons_on x hx).2
  have h1 := (hI.onmm_iff pe.name x).mpr ⟨hx, pe, hpe, rfl⟩
  have h2 := (hI.onmm_iff pe.name y).mpr ⟨hy, pe, hv ▸ hpe, rfl⟩
  rw [h1] at h2
  exact Option.some.inj h2

theorem Inv_New : Inv New where
  plugins_fresh := by simp [New]
  ons_fresh := by simp [New]
  plugins_nodup := by simp [New]
  ons_nodup := by simp [New]
  disjoint := by simp [New]
  plugins_entry := by simp [New]
  mm_iff := by simp [New]
  onmm_iff := by simp [New]
  ons_on := by simp [New]
  on_ons := by simp [New]

/-- The invariant does not read the hook log. -/
theorem Inv_hooks {m : PluginManage} (hI : Inv m) (hk : List HookEvent) :
    Inv { m with hooks := hk } :=
  ⟨hI.1, hI.2, hI.3, hI.4, hI.5, hI.6, hI.7, hI.8, hI.9, hI.10⟩

/-! ## The invariant is kept by the activation sequence -/

theorem Inv_on {m : PluginManage} (hI : Inv m) {x : Element} (hx : x ∈ m.plugins)
    {e : plugin_entry} (he : m.heap[x.Value]? = some e) (hoff : e.status = .StatusOff)
    (hk : List HookEvent) :
    Inv { m with
          hooks := hk
          heap := m.heap.set x.Value { e with status := .StatusOn }
          elems := m.elems + 1
          pluginons := m.pluginons ++ [{ addr := m.elems, Value := x.Value }]
          pluginon_mm := m.pluginon_mm.set e.name { addr := m.elems, Value := x.Value } } := by
  have hnew : ∀ y ∈ m.pluginons, y.Value ≠ x.Value := by
    intro y hy hv
    obtain ⟨q, hq, hs⟩ := (hI.ons_on y hy).2
    rw [hv, he] at hq
    cases hq
    rw [hoff] at hs
    cases hs
  constructor
  · intro y hy
    exact Nat.lt_succ_of_lt (hI.plugins_fresh y hy)
  · intro y hy
    rcases List.mem_append.mp hy with h | h
    · exact Nat.lt_succ_of_lt (hI.ons_fresh y h)
    · rw [List.mem_singleton.mp h]
      exact Nat.lt_succ_self _
  · exact hI.plugins_nodup
  · refine List.Nodup.append hI.ons_nodup (List.nodup_singleton _) ?_
    intro y hy hy2
    rw [List.mem_singleton.mp hy2] at hy
    exact absurd (hI.ons_fresh _ hy) (Nat.lt_irrefl _)
  · intro y hy hy2
    rcases List.mem_append.mp hy2 with h | h
    · exact hI.disjoint y hy h
    · rw [List.mem_singleton.mp h] at hy
      exact absurd (hI.plugins_fresh _ hy) (Nat.lt_irrefl _)
  · intro y hy
    obtain ⟨q, hq⟩ := hI.plugins_entry y hy
    have := (name_lookup_set m.heap x.Value e .StatusOn he y.Value q.name).mpr ⟨q, hq, rfl⟩
    obtain ⟨q2, hq2, -⟩ := this
    exact ⟨q2, hq2⟩
  · intro n y
    show m.plugin_mm n = some y ↔ y ∈ m.plugins ∧ _
    rw [hI.mm_iff n y]
    exact and_congr_right fun _ => (name_lookup_set m.heap x.Value e .StatusOn he y.Value n).symm
  · intro n y
    show ElMap.set m.pluginon_mm e.name _ n = some y ↔ y ∈ m.pluginons ++ [_] ∧ _
    have hname := name_lookup_set m.heap x.Value e .StatusOn he y.Value n
    unfold ElMap.set
    by_cases hn : n = e.name
    · rw [if_pos hn]
      constructor
      · intro h
        cases h
        refine ⟨List.mem_append_right _ (List.mem_singleton_self _), ?_⟩
        exact hname.mpr ⟨e, he, hn.symm⟩
      · rintro ⟨hy, hyn⟩
        rcases List.mem_append.mp hy with h | h
        · exfalso
          obtain ⟨⟨z, hz, hzv⟩, -⟩ := hI.ons_on y h
          have hyn2 : hasName m y n := hname.mp hyn
          have hzn : hasName m z n := by
            obtain ⟨q, hq, hqn⟩ := hyn2
            exact ⟨q, hzv ▸ hq, hqn⟩
          have := hI.name_inj hz hx hzn ⟨e, he, hn.symm⟩
          exact hnew y h (this ▸ hzv.symm)
        · rw [List.mem_singleton.mp h]
    · rw [if_neg hn, hI.onmm_iff n y]
      constructor
      · rintro ⟨hy, hyn⟩
        exact ⟨List.mem_append_left _ hy, hname.mpr hyn⟩
      · rintro ⟨hy, hyn⟩
        rcases List.mem_append.mp hy with h | h
        · exact ⟨h, hname.mp hyn⟩
        · exfalso
          have hyx := List.mem_singleton.mp h
          subst hyx
          obtain ⟨q, hq, hqn⟩ := hname.mp hyn
          rw [show m.heap[({ addr := m.elems, Value := x.Value } : Element).Value]? = some e
            from he] at hq
          cases hq
          exact hn hqn.symm
  · intro y hy
    rcases List.mem_append.mp hy with h | h
    · obtain ⟨hreg, q, hq, hs⟩ := hI.ons_on y h
      refine ⟨hreg, ?_⟩
      refine ⟨q, ?_, hs⟩
      show (m.heap.set x.Value _)[y.Value]? = some q
      rw [lookup_set_other _ _ _ _ (hnew y h), hq]
    · rw [List.mem_singleton.mp h]
      exact ⟨⟨x, hx, rfl⟩, _, lookup_set_self _ _ _ _ he, rfl⟩
  · rintro y hy ⟨q, hq, hs⟩
    by_cases hv : y.Value = x.Value
    · exact ⟨_, List.mem_append_right _ (List.mem_singleton_self _), hv.symm⟩
    · have hq2 : m.heap[y.Value]? = some q := by
        rw [← hq]
        exact (lookup_set_other _ _ _ _ hv).symm
      obtain ⟨z, hz, hzv⟩ := hI.on_ons y hy ⟨q, hq2, hs⟩
      exact ⟨z, List.mem_append_left _ hz, hzv⟩

/-! ## The invariant is kept by the deactivation sequence -/

theorem Inv_off {m : PluginManage} (hI : Inv m) {y : Element} (hy : y ∈ m.pluginons)
    {e : plugin_entry} (he : m.heap[y.Value]? = some e) (hk : List HookEvent) :
    Inv { m with
          pluginons := m.pluginons.erase y
          pluginon_mm := m.pluginon_mm.delete e.name
          heap := m.heap.set y.Value { e with status := .StatusOff }
          hooks := hk } := by
  have hmem : ∀ z, z ∈ m.pluginons.erase y ↔ z ≠ y ∧ z ∈ m.pluginons :=
    fun z => hI.ons_nodup.mem_erase_iff
  have hyn : hasName m y e.name := ⟨e, he, rfl⟩
  constructor
  · exact hI.plugins_fresh
  · intro z hz
    exact hI.ons_fresh z ((hmem z).mp hz).2
  · exact hI.plugins_nodup
  · exact hI.ons_nodup.erase y
  · intro z hz hz2
    exact hI.disjoint z hz ((hmem z).mp hz2).2
  · intro z hz
    obtain ⟨q, hq⟩ := hI.plugins_entry z hz
    obtain ⟨q2, hq2, -⟩ :=
      (name_lookup_set m.heap y.Value e .StatusOff he z.Value q.name).mpr ⟨q, hq, rfl⟩
    exact ⟨q2, hq2⟩
  · intro n z
    show m.plugin_mm n = some z ↔ z ∈ m.plugins ∧ _
    rw [hI.mm_iff n z]
    exact and_congr_right fun _ => (name_lookup_set m.heap y.Value e .StatusOff he z.Value n).symm
  · intro n z
    show ElMap.delete m.pluginon_mm e.name n = some z ↔ z ∈ m.pluginons.erase y ∧ _
    have hname := name_lookup_set m.heap y.Value e .StatusOff he z.Value n
    unfold ElMap.delete
    by_cases hn : n = e.name
    · rw [if_pos hn]
      constructor
      · intro h
        cases h
      · rintro ⟨hz, hzn⟩
        exfalso
        obtain ⟨hne, hz2⟩ := (hmem z).mp hz
        have h1 := (hI.onmm_iff n z).mpr ⟨hz2, hname.mp hzn⟩
        have h2 := (hI.onmm_iff n y).mpr ⟨hy, hn ▸ hyn⟩
        rw [h1] at h2
        exact hne (Option.some.inj h2)
    · rw [if_neg hn, hI.onmm_iff n z]
      constructor
      · rintro ⟨hz, hzn⟩
        refine ⟨(hmem z).mpr ⟨?_, hz⟩, hname.mpr hzn⟩
        intro hzy
        subst hzy
        obtain ⟨q, hq, hqn⟩ := hzn
        rw [he] at hq
        cases hq
        exact hn hqn.symm
      · rintro ⟨hz, hzn⟩
        exact ⟨((hmem z).mp hz).2, hname.mp hzn⟩
  · intro z hz
    obtain ⟨hne, hz2⟩ := (hmem z).mp hz
    obtain ⟨hreg, q, hq, hs⟩ := hI.ons_on z hz2
    refine ⟨hreg, q, ?_, hs⟩
    show (m.heap.set y.Value _)[z.Value]? = some q
    rw [lookup_set_other _ _ _ _ (fun hv => hne (hI.on_value_inj hz2 hy hv)), hq]
  · rintro x hx ⟨q, hq, hs⟩
    have hv : x.Value ≠ y.Value := by
      intro hv
      have hq' : (m.heap.set y.Value { e with status := .StatusOff })[x.Value]? = some q := hq
      rw [hv, lookup_set_self _ _ _ _ he] at hq'
      cases hq'
      cases hs
    have hq2 : m.heap[x.Value]? = some q := by
      rw [← hq]
      exact (lookup_set_other _ _ _ _ hv).symm
    obtain ⟨z, hz, hzv⟩ := hI.on_ons x hx ⟨q, hq2, hs⟩
    refine ⟨z, (hmem z).mpr ⟨?_, hz⟩, hzv⟩
    intro hzy
    exact hv (hzy ▸ hzv).symm

/-- Forgetting a registered entry that is off keeps the invariant. -/
theorem Inv_unregister {m : PluginManage} (hI : Inv m) {x : Element} (hx : x ∈ m.plugins)
    {e : plugin_entry} (he : m.heap[x.Value]? = some e) (hoff : e.status = .StatusOff) :
    Inv { m with
          plugins := m.plugins.erase x
          plugin_mm := m.plugin_mm.delete e.name } := by
  have hmem : ∀ z, z ∈ m.plugins.erase x ↔ z ≠ x ∧ z ∈ m.plugins :=
    fun z => hI.plugins_nodup.mem_erase_iff
  have hxn : hasName m x e.name := ⟨e, he, rfl⟩
  constructor
  · intro z hz
    exact hI.plugins_fresh z ((hmem z).mp hz).2
  · exact hI.ons_fresh
  · exact hI.plugins_nodup.erase x
  · exact hI.ons_nodup
  · intro z hz
    exact hI.disjoint z ((hmem z).mp hz).2
  · intro z hz
    exact hI.plugins_entry z ((hmem z).mp hz).2
  · intro n z
    show ElMap.delete m.plugin_mm e.name n = some z ↔ z ∈ m.plugins.erase x ∧ hasName m z n
    unfold ElMap.delete
    by_cases hn : n = e.name
    · rw [if_pos hn]
      constructor
      · intro h
        cases h
      · rintro ⟨hz, hzn⟩
        exfalso
        obtain ⟨hne, hz2⟩ := (hmem z).mp hz
        exact hne (hI.name_inj hz2 hx hzn (hn ▸ hxn))
    · rw [if_neg hn, hI.mm_iff n z]
      constructor
      · rintro ⟨hz, hzn⟩
        refine ⟨(hmem z).mpr ⟨?_, hz⟩, hzn⟩
        intro hzx
        subst hzx
        obtain ⟨q, hq, hqn⟩ := hzn
        rw [he] at hq
        cases hq
        exact hn hqn.symm
      · rintro ⟨hz, hzn⟩
        exact ⟨((hmem z).mp hz).2, hzn⟩
  · exact hI.onmm_iff
  · intro z hz
    obtain ⟨⟨w, hw, hwv⟩, hon⟩ := hI.ons_on z hz
    refine ⟨⟨w, (hmem w).mpr ⟨?_, hw⟩, hwv⟩, hon⟩
    intro hwx
    subst hwx
    obtain ⟨q, hq, hs⟩ := hon
    rw [← hwv, he] at hq
    cases hq
    rw [hoff] at hs
    cases hs
  · intro z hz hon
    exact hI.on_ons z ((hmem z).mp hz).2 hon

/-- Registering a fresh name keeps the invariant. -/
theorem Inv_register {m : PluginManage} (hI : Inv m) (name : String) (p : Pluginer)
    (hfree : m.plugin_mm name = none) :
    Inv { m with
          heap := m.heap ++ [{ name := name, plugin := p, status := .StatusOff }]
          elems := m.elems + 1
          plugins := m.plugins ++ [{ addr := m.elems, Value := m.heap.length }]
          plugin_mm := m.plugin_mm.set name { addr := m.elems, Value := m.heap.length } } := by
  have hold : ∀ i q, m.heap[i]? = some q →
      (m.heap ++ [{ name := name, plugin := p, status := .StatusOff }])[i]? = some q :=
    fun i q h => lookup_append_old _ _ _ _ h
  have hback : ∀ i q, i ≠ m.heap.length →
      (m.heap ++ [{ name := name, plugin := p, status := .StatusOff }])[i]? = some q →
      m.heap[i]? = some q := by
    intro i q hi h
    have hlt := lookup_lt _ _ _ h
    simp only [List.length_append, List.length_singleton] at hlt
    have hlt2 : i < m.heap.length := by omega
    rwa [List.getElem?_append_left hlt2] at h
  have hregv : ∀ z ∈ m.plugins, z.Value ≠ m.heap.length := by
    intro z hz hv
    obtain ⟨q, hq⟩ := hI.plugins_entry z hz
    exact absurd (lookup_lt _ _ _ hq) (by omega)
  have honv : ∀ z ∈ m.pluginons, z.Value ≠ m.heap.length := by
    intro z hz hv
    obtain ⟨q, hq, -⟩ := (hI.ons_on z hz).2
    exact absurd (lookup_lt _ _ _ hq) (by omega)
  constructor
  · intro z hz
    rcases List.mem_append.mp hz with h | h
    · exact Nat.lt_succ_of_lt (hI.plugins_fresh z h)
    · rw [List.mem_singleton.mp h]
      exact Nat.lt_succ_self _
  · intro z hz
    exact Nat.lt_succ_of_lt (hI.ons_fresh z hz)
  · refine List.Nodup.append hI.plugins_nodup (List.nodup_singleton _) ?_
    intro z hz hz2
    rw [List.mem_singleton.mp hz2] at hz
    exact absurd (hI.plugins_fresh _ hz) (Nat.lt_irrefl _)
  · exact hI.ons_nodup
  · intro z hz hz2
    rcases List.mem_append.mp hz with h | h
    · exact hI.disjoint z h hz2
    · rw [List.mem_singleton.mp h] at hz2
      exact absurd (hI.ons_fresh _ hz2) (Nat.lt_irrefl _)
  · intro z hz
    rcases List.mem_append.mp hz with h | h
    · obtain ⟨q, hq⟩ := hI.plugins_entry z h
      exact ⟨q, hold _ _ hq⟩
    · rw [List.mem_singleton.mp h]
      exact ⟨_, heap_fresh_lookup _ _⟩
  · intro n z
    show ElMap.set m.plugin_mm name _ n = some z ↔ z ∈ m.plugins ++ [_] ∧ _
    unfold ElMap.set
    by_cases hn : n = name
    · rw [if_pos hn]
      constructor
      · intro h
        cases h
        exact ⟨List.mem_append_right _ (List.mem_singleton_self _), _,
          heap_fresh_lookup _ _, hn.symm⟩
      · rintro ⟨hz, q, hq, hqn⟩
        rcases List.mem_append.mp hz with h | h
        · exfalso
          have hq2 := hback _ _ (hregv z h) hq
          have := (hI.mm_iff n z).mpr ⟨h, q, hq2, hqn⟩
          rw [hn, hfree] at this
          cases this
        · rw [List.mem_singleton.mp h]
    · rw [if_neg hn, hI.mm_iff n z]
      constructor
      · rintro ⟨hz, q, hq, hqn⟩
        exact ⟨List.mem_append_left _ hz, q, hold _ _ hq, hqn⟩
      · rintro ⟨hz, q, hq, hqn⟩
        rcases List.mem_append.mp hz with h | h
        · exact ⟨h, q, hback _ _ (hregv z h) hq, hqn⟩
        · exfalso
          have hzx := List.mem_singleton.mp h
          subst hzx
          have hq' : (m.heap ++ [({ name := name, plugin := p, status := .StatusOff } :
              plugin_entry)])[m.heap.length]? = some q := hq
          rw [heap_fresh_lookup] at hq'
          cases hq'
          exact hn hqn.symm
  · intro n z
    show m.pluginon_mm n = some z ↔ z ∈ m.pluginons ∧ _
    rw [hI.onmm_iff n z]
    constructor
    · rintro ⟨hz, q, hq, hqn⟩
      exact ⟨hz, q, hold _ _ hq, hqn⟩
    · rintro ⟨hz, q, hq, hqn⟩
      exact ⟨hz, q, hback _ _ (honv z hz) hq, hqn⟩
  · intro z hz
    obtain ⟨⟨w, hw, hwv⟩, q, hq, hs⟩ := hI.ons_on z hz
    exact ⟨⟨w, List.mem_append_left _ hw, hwv⟩, q, hold _ _ hq, hs⟩
  · rintro z hz ⟨q, hq, hs⟩
    rcases List.mem_append.mp hz with h | h
    · exact hI.on_ons z h ⟨q, hback _ _ (hregv z h) hq, hs⟩
    · exfalso
      have hzx := List.mem_singleton.mp h
      subst hzx
      have hq' : (m.heap ++ [({ name := name, plugin := p, status := .StatusOff } :
          plugin_entry)])[m.heap.length]? = some q := hq
      rw [heap_fresh_lookup] at hq'
      cases hq'
      cases hs

/-! ## The two internal sequences on a state that satisfies the invariant -/

/-- The result of `off` on the entry of an element of `pluginons`. -/
theorem off_eq {m : PluginManage} (hI : Inv m) {y : Element} (hy : y ∈ m.pluginons) :
    ∃ e, m.heap[y.Value]? = some e ∧ e.status = .StatusOn ∧
      off y.Value m = .ok
        { m with
          pluginons := m.pluginons.erase y
          pluginon_mm := m.pluginon_mm.delete e.name
          heap := m.heap.set y.Value { e with status := .StatusOff }
          hooks := m.hooks ++ [.Off y.Value] } := by
  obtain ⟨-, e, he, hs⟩ := hI.ons_on y hy
  have hmm := (hI.onmm_iff e.name y).mpr ⟨hy, e, he, rfl⟩
  refine ⟨e, he, hs, ?_⟩
  simp only [off, he, hmm]

/-- The result of `on_` on an entry that is in the heap. -/
theorem on_eq (o : Oracle) {m : PluginManage} {pe : Nat} {e : plugin_entry}
    (he : m.heap[pe]? = some e) :
    on_ o pe m =
      match o m.hooks e.plugin with
      | some err => .ok (some err, { m with hooks := m.hooks ++ [.On pe (some err)] })
      | none =>
        .ok (none,
          { m with
            hooks := m.hooks ++ [.On pe none]
            heap := m.heap.set pe { e with status := .StatusOn }
            elems := m.elems + 1
            pluginons := m.pluginons ++ [{ addr := m.elems, Value := pe }]
            pluginon_mm := m.pluginon_mm.set e.name { addr := m.elems, Value := pe } }) := by
  simp only [on_, he]

/-- The activation sequence on a registered entry that is off returns and keeps the
invariant, whatever the hook answers. -/
theorem on_keeps_Inv (o : Oracle) {m : PluginManage} (hI : Inv m) {x : Element}
    (hx : x ∈ m.plugins) {e : plugin_entry} (he : m.heap[x.Value]? = some e)
    (hoff : e.status = .StatusOff) :
    ∃ r m', on_ o x.Value m = .ok (r, m') ∧ Inv m' ∧ m'.plugins = m.plugins ∧
      m'.plugin_mm = m.plugin_mm := by
  rw [on_eq o he]
  cases o m.hooks e.plugin with
  | some err => exact ⟨_, _, rfl, Inv_hooks hI _, rfl, rfl⟩
  | none => exact ⟨_, _, rfl, Inv_on hI hx he hoff _, rfl, rfl⟩

/-- An element that is in neither list has no predecessor. -/
theorem Prev_removed {m : PluginManage} {y : Element} (h1 : y ∉ m.plugins)
    (h2 : y ∉ m.pluginons) : y.Prev m = none := by
  simp [Element.Prev, Element.list, h1, h2]

/-- On a state that satisfies the invariant `Off()` is one deactivation sequence, on the
back of `pluginons`, or nothing when `pluginons` is empty. -/
theorem Off_eq {m : PluginManage} (hI : Inv m) :
    Off m = match m.pluginons.getLast? with
      | none => .ok m
      | some y => off y.Value m := by
  unfold Off
  cases hl : m.pluginons.getLast? with
  | none => rfl
  | some y =>
    have hy : y ∈ m.pluginons := List.mem_of_getLast?_eq_some hl
    obtain ⟨e, he, hs, hoff⟩ := off_eq hI hy
    have hlen : m.pluginons.length = (m.pluginons.length - 1) + 1 := by
      have := List.length_pos_of_mem hy
      omega
    rw [hlen]
    simp only [OffLoop, he, hs, if_true, hoff]
    have key : ∀ m1 : PluginManage, m1.plugins = m.plugins →
        m1.pluginons = m.pluginons.erase y →
        OffLoop (m.pluginons.length - 1 + 1) (y.Prev m1) m1 = .ok m1 := by
      intro m1 h1 h2
      rw [Prev_removed (h1 ▸ fun h => hI.disjoint y h hy)
        (h2 ▸ fun h => (hI.ons_nodup.mem_erase_iff.mp h).1 rfl)]
      rfl
    exact key _ rfl rfl

/-! ## The loop of `On()` -/

theorem nextOf_mid : ∀ (done : List Element) (e : Element) (rest : List Element),
    (done ++ e :: rest).Nodup → nextOf (done ++ e :: rest) e = rest.head?
  | [], e, rest, _ => by simp [nextOf]
  | d :: done, e, rest, h => by
    have hd : d ≠ e := by
      intro hde
      have := (List.nodup_cons.mp h).1
      exact this (hde ▸ List.mem_append_right _ (List.mem_cons_self _ _))
    simp only [List.cons_append, nextOf, if_neg hd]
    exact nextOf_mid done e rest (List.nodup_cons.mp h).2

theorem Next_registered {m : PluginManage} {done rest : List Element} {e : Element}
    (hp : m.plugins = done ++ e :: rest) (hn : m.plugins.Nodup) :
    e.Next m = rest.head? := by
  have he : e ∈ m.plugins := by
    rw [hp]
    exact List.mem_append_right _ (List.mem_cons_self _ _)
  simp only [Element.Next, Element.list, if_pos he]
  rw [hp]
  exact nextOf_mid done e rest (hp ▸ hn)

theorem wasOff_of_off {m : PluginManage} {e : Element} {q : plugin_entry}
    (he : m.heap[e.Value]? = some q) (hs : q.status = .StatusOff) : wasOff m e = true := by
  simp [wasOff, he, hs]

theorem wasOff_of_on {m : PluginManage} {e : Element} {q : plugin_entry}
    (he : m.heap[e.Value]? = some q) (hs : q.status = .StatusOn) : wasOff m e = false := by
  simp [wasOff, he, hs]

theorem Walked.refl (m : PluginManage) : Walked m [] m where
  plugins_eq := rfl
  mm_eq := rfl
  all_on := by simp
  frame := fun _ _ => rfl
  hooks_eq := by simp [offEls]
  ons_eq := ⟨[], by simp [offEls]⟩

/-- Walking past an element whose entry is already on. -/
theorem Walked.skip {m m1 : PluginManage} {done : List Element} (hw : Walked m done m1)
    {e : Element} {q : plugin_entry} (he : m.heap[e.Value]? = some q)
    (hs : q.status = .StatusOn) (hne : ∀ x ∈ done, x.Value ≠ e.Value) :
    Walked m (done ++ [e]) m1 where
  plugins_eq := hw.plugins_eq
  mm_eq := hw.mm_eq
  all_on := by
    intro x hx
    rcases List.mem_append.mp hx with h | h
    · exact hw.all_on x h
    · rw [List.mem_singleton.mp h]
      exact ⟨q, (hw.frame _ hne).trans he, hs⟩
  frame := fun i hi => hw.frame i fun x hx => hi x (List.mem_append_left _ hx)
  hooks_eq := by
    rw [hw.hooks_eq]
    simp [offEls, List.filter_append, wasOff_of_on he hs]
  ons_eq := by
    obtain ⟨news, h1, h2⟩ := hw.ons_eq
    exact ⟨news, h1, by simp [h2, offEls, List.filter_append, wasOff_of_on he hs]⟩

/-- Walking over an element whose entry is off and whose hook succeeds. -/
theorem Walked.step {m m1 : PluginManage} {done : List Element} (hw : Walked m done m1)
    {e : Element} {q : plugin_entry} (he : m.heap[e.Value]? = some q)
    (hs : q.status = .StatusOff) (hne : ∀ x ∈ done, x.Value ≠ e.Value) :
    Walked m (done ++ [e])
      { m1 with
        hooks := m1.hooks ++ [.On e.Value none]
        heap := m1.heap.set e.Value { q with status := .StatusOn }
        elems := m1.elems + 1
        pluginons := m1.pluginons ++ [{ addr := m1.elems, Value := e.Value }]
        pluginon_mm := m1.pluginon_mm.set q.name { addr := m1.elems, Value := e.Value } } where
  plugins_eq := hw.plugins_eq
  mm_eq := hw.mm_eq
  all_on := by
    have he1 : m1.heap[e.Value]? = some q := (hw.frame _ hne).trans he
    intro x hx
    rcases List.mem_append.mp hx with h | h
    · obtain ⟨qx, hqx, hsx⟩ := hw.all_on x h
      refine ⟨qx, ?_, hsx⟩
      show (m1.heap.set e.Value _)[x.Value]? = some qx
      rw [lookup_set_other _ _ _ _ (hne x h), hqx]
    · rw [List.mem_singleton.mp h]
      exact ⟨_, lookup_set_self _ _ _ _ he1, rfl⟩
  frame := by
    intro i hi
    show (m1.heap.set e.Value _)[i]? = m.heap[i]?
    have hie : i ≠ e.Value :=
      fun h => hi e (List.mem_append_right _ (List.mem_singleton_self _)) h.symm
    rw [lookup_set_other _ _ _ _ hie]
    exact hw.frame i fun x hx => hi x (List.mem_append_left _ hx)
  hooks_eq := by
    show m1.hooks ++ [HookEvent.On e.Value none] = _
    rw [hw.hooks_eq]
    simp [offEls, List.filter_append, wasOff_of_off he hs, onOk]
  ons_eq := by
    obtain ⟨news, h1, h2⟩ := hw.ons_eq
    refine ⟨news ++ [{ addr := m1.elems, Value := e.Value }], ?_, ?_⟩
    · show m1.pluginons ++ [_] = _
      rw [h1, List.append_assoc]
    · simp [h2, offEls, List.filter_append, wasOff_of_off he hs]

/-- The loop of `On()` started at the head of a suffix `els` of `plugins`, after the elements
`done` before it were walked: it returns, keeps the invariant, and either walks all of `els`
and returns nil, or stops at the first element whose entry is off and whose hook fails. -/
theorem OnLoop_walk (o : Oracle) {m : PluginManage} (hIm : Inv m) :
    ∀ (els done : List Element) (m1 : PluginManage) (fuel : Nat),
      Inv m1 → Walked m done m1 → m.plugins = done ++ els → els.length < fuel →
      ∃ r m', OnLoop o fuel els.head? m1 = .ok (r, m') ∧ Inv m' ∧
        ((r = none ∧ Walked m (done ++ els) m') ∨
         ∃ d e rest q err m2, els = d ++ e :: rest ∧ Walked m (done ++ d) m2 ∧
           m.heap[e.Value]? = some q ∧ q.status = .StatusOff ∧
           o m2.hooks q.plugin = some err ∧ r = some (onFailMsg q.name err) ∧
           m' = { m2 with hooks := m2.hooks ++ [.On e.Value (some err)] }) := by
  intro els
  induction els with
  | nil =>
    intro done m1 fuel hI1 hw _ hf
    obtain ⟨k, rfl⟩ : ∃ k, fuel = k + 1 := ⟨fuel - 1, by simp at hf; omega⟩
    exact ⟨none, m1, rfl, hI1, Or.inl ⟨rfl, by simpa using hw⟩⟩
  | cons e rest ih =>
    intro done m1 fuel hI1 hw hp hf
    obtain ⟨k, rfl⟩ : ∃ k, fuel = k + 1 := ⟨fuel - 1, by simp at hf; omega⟩
    have hk : rest.length < k := by simpa using hf
    have hmem : e ∈ m.plugins := by
      rw [hp]
      exact List.mem_append_right _ (List.mem_cons_self _ _)
    have hnd : (done ++ e :: rest).Nodup := hp ▸ hIm.plugins_nodup
    have hne : ∀ x ∈ done, x.Value ≠ e.Value := by
      intro x hx hv
      have hxm : x ∈ m.plugins := by
        rw [hp]
        exact List.mem_append_left _ hx
      have hxe := hIm.value_inj hxm hmem hv
      subst hxe
      exact (List.nodup_append.mp hnd).2.2 hx (List.mem_cons_self _ _)
    obtain ⟨q, he⟩ := hIm.plugins_entry e hmem
    have he1 : m1.heap[e.Value]? = some q := (hw.frame _ hne).trans he
    have hp1 : m1.plugins = done ++ e :: rest := hw.plugins_eq.trans hp
    have hp2 : m.plugins = (done ++ [e]) ++ rest := by simp [hp]
    have hnext : ∀ m2 : PluginManage, m2.plugins = m1.plugins → e.Next m2 = rest.head? :=
      fun m2 h2 => Next_registered (h2.trans hp1) (h2 ▸ hI1.plugins_nodup)
    have finish : ∀ m2, m2.plugins = m1.plugins → Inv m2 → Walked m (done ++ [e]) m2 →
        ∃ r m', OnLoop o k (e.Next m2) m2 = .ok (r, m') ∧ Inv m' ∧
        ((r = none ∧ Walked m (done ++ e :: rest) m') ∨
         ∃ d e' rest' q err m3, e :: rest = d ++ e' :: rest' ∧ Walked m (done ++ d) m3 ∧
           m.heap[e'.Value]? = some q ∧ q.status = .StatusOff ∧
           o m3.hooks q.plugin = some err ∧ r = some (onFailMsg q.name err) ∧
           m' = { m3 with hooks := m3.hooks ++ [.On e'.Value (some err)] }) := by
      intro m2 h2 hI2 hw2
      rw [hnext m2 h2]
      obtain ⟨r, m', hrun, hI', hres⟩ := ih (done ++ [e]) m2 k hI2 hw2 hp2 hk
      refine ⟨r, m', hrun, hI', ?_⟩
      rcases hres with ⟨hr, hw'⟩ | ⟨d, e', rest', q', err, m3, hels, hw3, hq', hs', ho, hr, hm'⟩
      · exact Or.inl ⟨hr, by simpa using hw'⟩
      · exact Or.inr ⟨e :: d, e', rest', q', err, m3, by simp [hels], by simpa using hw3,
          hq', hs', ho, hr, hm'⟩
    simp only [List.head?_cons, OnLoop, he1]
    cases hs : q.status with
    | StatusOn =>
      rw [if_neg (by decide)]
      exact finish m1 rfl hI1 (hw.skip he hs hne)
    | StatusOff =>
      rw [if_pos rfl, on_eq o he1]
      cases ho : o m1.hooks q.plugin with
      | some err =>
        exact ⟨_, _, rfl, Inv_hooks hI1 _,
          Or.inr ⟨[], e, rest, q, err, m1, rfl, by simpa using hw, he, hs, ho, rfl, rfl⟩⟩
      | none =>
        have hmem1 : e ∈ m1.plugins := hw.plugins_eq ▸ hmem
        exact finish _ rfl (Inv_on hI1 hmem1 he1 hs _) (hw.step he hs hne)

/-! ## The public methods keep the invariant -/

theorem unknown_name_eq (name : String) (m : PluginManage)
    (h : m.plugin_mm name = none) :
    UnRegistryPlugin name m = .ok (some (notFoundMsg name), m) := by
  simp only [UnRegistryPlugin, h]

theorem duplicate_name_eq (o : Oracle) (name : String) (p : Pluginer) (now : Bool)
    (m : PluginManage) (x : Element) (h : m.plugin_mm name = some x) :
    RegistryPlugin o name p now m = .ok (some (dupMsg name), m) := by
  simp only [RegistryPlugin, h]

/-- The result of `UnRegistryPlugin` on a registered name, by the status of its entry. -/
theorem UnRegistryPlugin_eq {m : PluginManage} (hI : Inv m) {name : String} {x : Element}
    (hx : m.plugin_mm name = some x) :
    ∃ e, m.heap[x.Value]? = some e ∧ e.name = name ∧ x ∈ m.plugins ∧
      ((e.status = .StatusOff ∧
          UnRegistryPlugin name m = .ok (none,
            { m with
              plugins := m.plugins.erase x
              plugin_mm := m.plugin_mm.delete name })) ∨
       (e.status = .StatusOn ∧ ∃ y ∈ m.pluginons, y.Value = x.Value ∧
          UnRegistryPlugin name m = .ok (none,
            { m with
              plugins := m.plugins.erase x
              plugin_mm := m.plugin_mm.delete name
              pluginons := m.pluginons.erase y
              pluginon_mm := m.pluginon_mm.delete name
              heap := m.heap.set x.Value { e with status := .StatusOff }
              hooks := m.hooks ++ [.Off x.Value] }))) := by
  obtain ⟨hmem, e, he, hn⟩ := (hI.mm_iff name x).mp hx
  refine ⟨e, he, hn, hmem, ?_⟩
  subst hn
  cases hs : e.status with
  | StatusOff =>
    left
    refine ⟨rfl, ?_⟩
    simp [UnRegistryPlugin, hx, he, hs]
  | StatusOn =>
    right
    obtain ⟨y, hy, hv⟩ := hI.on_ons x hmem ⟨e, he, hs⟩
    have hmm := (hI.onmm_iff e.name y).mpr ⟨hy, e, hv ▸ he, rfl⟩
    refine ⟨rfl, y, hy, hv, ?_⟩
    simp [UnRegistryPlugin, hx, he, hs, off, hmm]

theorem UnRegistryPlugin_keeps_Inv {m : PluginManage} (hI : Inv m) (name : String) :
    ∃ r m', UnRegistryPlugin name m = .ok (r, m') ∧ Inv m' := by
  cases hx : m.plugin_mm name with
  | none => exact ⟨_, _, unknown_name_eq name m hx, hI⟩
  | some x =>
    obtain ⟨e, he, hn, hmem, h⟩ := UnRegistryPlugin_eq hI hx
    subst hn
    rcases h with ⟨hs, hrun⟩ | ⟨hs, y, hy, hv, hrun⟩
    · exact ⟨_, _, hrun, Inv_unregister hI hmem he hs⟩
    · refine ⟨_, _, hrun, ?_⟩
      have hI2 := Inv_off hI hy (hv ▸ he) (m.hooks ++ [.Off x.Value])
      have hx2 : x ∈ m.plugins := hmem
      have := Inv_unregister hI2 hx2
        (e := { e with status := .StatusOff })
        (by
          show (m.heap.set y.Value _)[x.Value]? = _
          rw [hv]
          exact lookup_set_self _ _ _ _ he) rfl
      rw [hv] at this
      exact this

theorem RegistryPlugin_keeps_Inv (o : Oracle) (name : String) (p : Pluginer) (now : Bool)
    {m : PluginManage} (hI : Inv m) :
    ∃ r m', RegistryPlugin o name p now m = .ok (r, m') ∧ Inv m' := by
  cases hx : m.plugin_mm name with
  | some x =>
    exact ⟨_, _, duplicate_name_eq o name p now m x hx, hI⟩
  | none =>
    have hI1 := Inv_register hI name p hx
    cases now with
    | false =>
      refine ⟨none, _, ?_, hI1⟩
      simp only [RegistryPlugin, hx, Bool.false_eq_true, if_false]
    | true =>
      have hmem : ({ addr := m.elems, Value := m.heap.length } : Element) ∈
          m.plugins ++ [{ addr := m.elems, Value := m.heap.length }] :=
        List.mem_append_right _ (List.mem_singleton_self _)
      obtain ⟨r, m', hrun, hI', -, -⟩ := on_keeps_Inv o hI1 hmem
        (heap_fresh_lookup m.heap { name := name, plugin := p, status := .StatusOff }) rfl
      simp only [RegistryPlugin, hx, if_true]
      have hrun' : on_ o m.heap.length
          { m with
            heap := m.heap ++ [{ name := name, plugin := p, status := .StatusOff }]
            elems := m.elems + 1
            plugins := m.plugins ++ [{ addr := m.elems, Value := m.heap.length }]
            plugin_mm := m.plugin_mm.set name { addr := m.elems, Value := m.heap.length } }
          = .ok (r, m') := hrun
      rw [hrun']
      cases r with
      | none => exact ⟨_, _, rfl, hI'⟩
      | some err => exact ⟨_, _, rfl, hI'⟩

theorem Off_keeps_Inv {m : PluginManage} (hI : Inv m) : ∃ m', Off m = .ok m' ∧ Inv m' := by
  rw [Off_eq hI]
  cases hl : m.pluginons.getLast? with
  | none => exact ⟨m, rfl, hI⟩
  | some y =>
    have hy : y ∈ m.pluginons := List.mem_of_getLast?_eq_some hl
    obtain ⟨e, he, -, hoff⟩ := off_eq hI hy
    exact ⟨_, hoff, Inv_off hI hy he _⟩

theorem On_keeps_Inv (o : Oracle) {m : PluginManage} (hI : Inv m) :
    ∃ r m', On o m = .ok (r, m') ∧ Inv m' := by
  obtain ⟨r, m', hrun, hI', -⟩ := OnLoop_walk o hI m.plugins [] m (m.plugins.length + 1) hI
    (Walked.refl m) rfl (Nat.lt_succ_self _)
  exact ⟨r, m', hrun, hI'⟩

theorem exec_keeps_Inv (c : Call) {m : PluginManage} (hI : Inv m) :
    ∃ m', c.exec m = .ok m' ∧ Inv m' := by
  cases c with
  | RegistryPlugin o name p now =>
    obtain ⟨r, m', h, hI'⟩ := RegistryPlugin_keeps_Inv o name p now hI
    exact ⟨m', by simp [Call.exec, h, Except.map], hI'⟩
  | UnRegistryPlugin name =>
    obtain ⟨r, m', h, hI'⟩ := UnRegistryPlugin_keeps_Inv hI name
    exact ⟨m', by simp [Call.exec, h, Except.map], hI'⟩
  | On o =>
    obtain ⟨r, m', h, hI'⟩ := On_keeps_Inv o hI
    exact ⟨m', by simp [Call.exec, h, Except.map], hI'⟩
  | Off =>
    obtain ⟨m', h, hI'⟩ := Off_keeps_Inv hI
    exact ⟨m', by simp [Call.exec, h], hI'⟩
  | Get name =>
    refine ⟨m, ?_, hI⟩
    simp only [Call.exec, Get]
    cases hx : m.plugin_mm name with
    | none => rfl
    | some x =>
      obtain ⟨-, e, he, -⟩ := (hI.mm_iff name x).mp hx
      simp [he, Except.map]
  | IsOn name =>
    refine ⟨m, ?_, hI⟩
    simp only [Call.exec, IsOn]
    cases hx : m.plugin_mm name with
    | none => rfl
    | some x =>
      obtain ⟨-, e, he, -⟩ := (hI.mm_iff name x).mp hx
      simp [he, Except.map]

/-- No sequence of calls faults, and every state on the way satisfies the invariant. -/
theorem run_keeps_Inv : ∀ (cs : List Call) {m : PluginManage}, Inv m →
    ∃ m', run cs m = .ok m' ∧ Inv m'
  | [], m, hI => ⟨m, rfl, hI⟩
  | c :: cs, m, hI => by
    obtain ⟨m1, h1, hI1⟩ := exec_keeps_Inv c hI
    obtain ⟨m', h', hI'⟩ := run_keeps_Inv cs hI1
    exact ⟨m', by simp [run, h1, h'], hI'⟩

theorem Reachable.inv {m : PluginManage} (h : Reachable m) : Inv m := by
  obtain ⟨cs, hcs⟩ := h
  obtain ⟨m', h', hI'⟩ := run_keeps_Inv cs Inv_New
  rw [hcs] at h'
  cases h'
  exact hI'

/-! ## The activation list holds exactly the entries that are on -/

/-- C10: in every state reachable from `New()` by calls of the six public methods, under any
plugin behaviour and whether or not the calls returned errors, each element of `plugins`
points to an entry which is on if and only if some element of `pluginons` points to it, and if
and only if its name is a key of `pluginon_mm`; the index maps the name to that element of
`pluginons`; and no entry is pointed to by two elements of `pluginons`. -/
theorem activation_list_iff_on (m : PluginManage) (hm : Reachable m) :
    (∀ x ∈ m.plugins, ∃ q, m.heap[x.Value]? = some q ∧
      (q.status = .StatusOn ↔ ∃ y ∈ m.pluginons, y.Value = x.Value) ∧
      (q.status = .StatusOn ↔ ∃ y, m.pluginon_mm q.name = some y) ∧
      ∀ y, m.pluginon_mm q.name = some y → y ∈ m.pluginons ∧ y.Value = x.Value) ∧
    (m.pluginons.map Element.Value).Nodup ∧ m.pluginons.Nodup := by
  have hI := hm.inv
  refine ⟨?_, ?_, hI.ons_nodup⟩
  · intro x hx
    obtain ⟨q, hq⟩ := hI.plugins_entry x hx
    have hback : ∀ y, m.pluginon_mm q.name = some y → y ∈ m.pluginons ∧ y.Value = x.Value := by
      intro y hy
      obtain ⟨hmem, qy, hqy, hn⟩ := (hI.onmm_iff q.name y).mp hy
      obtain ⟨⟨w, hw, hwv⟩, -⟩ := hI.ons_on y hmem
      have hwx : w = x := hI.name_inj hw hx ⟨qy, hwv ▸ hqy, hn⟩ ⟨q, hq, rfl⟩
      exact ⟨hmem, hwx ▸ hwv.symm⟩
    have hiff : q.status = .StatusOn ↔ ∃ y ∈ m.pluginons, y.Value = x.Value := by
      constructor
      · intro hs
        exact hI.on_ons x hx ⟨q, hq, hs⟩
      · rintro ⟨y, hy, hv⟩
        obtain ⟨-, qy, hqy, hs⟩ := hI.ons_on y hy
        rw [hv, hq] at hqy
        cases hqy
        exact hs
    refine ⟨q, hq, hiff, ?_, hback⟩
    constructor
    · intro hs
      obtain ⟨y, hy, hv⟩ := hiff.mp hs
      exact ⟨y, (hI.onmm_iff q.name y).mpr ⟨hy, q, hv ▸ hq, rfl⟩⟩
    · rintro ⟨y, hy⟩
      obtain ⟨hmem, hv⟩ := hback y hy
      exact hiff.mpr ⟨y, hmem, hv⟩
  · exact List.Nodup.map_on (fun x hx y hy hv => hI.on_value_inj hx hy hv) hI.ons_nodup

theorem activation_list_iff_on_witness :
    Reachable (stateOf callsABonOff) ∧
    ((∀ x ∈ (stateOf callsABonOff).plugins,
      ∃ q, (stateOf callsABonOff).heap[x.Value]? = some q ∧
      (q.status = .StatusOn ↔ ∃ y ∈ (stateOf callsABonOff).pluginons,
        y.Value = x.Value) ∧
      (q.status = .StatusOn ↔ ∃ y, (stateOf callsABonOff).pluginon_mm q.name = some y) ∧
      ∀ y, (stateOf callsABonOff).pluginon_mm q.name = some y →
        y ∈ (stateOf callsABonOff).pluginons ∧ y.Value = x.Value) ∧
    ((stateOf callsABonOff).pluginons.map Element.Value).Nodup ∧
    (stateOf callsABonOff).pluginons.Nodup) :=
  ⟨⟨callsABonOff, rfl⟩,
    activation_list_iff_on (stateOf callsABonOff) ⟨callsABonOff, rfl⟩⟩

/-! ## Unregistering a registered name -/

theorem Forgotten_of_unregistered {m : PluginManage} (hI : Inv m) {name : String}
    (h : m.plugin_mm name = none) : Forgotten name m := by
  have h1 : ∀ z ∈ m.plugins, ¬ hasName m z name := by
    intro z hz hzn
    have := (hI.mm_iff name z).mpr ⟨hz, hzn⟩
    rw [h] at this
    cases this
  have h3 : ∀ z ∈ m.pluginons, ¬ hasName m z name := by
    intro z hz hzn
    obtain ⟨⟨w, hw, hwv⟩, -⟩ := hI.ons_on z hz
    obtain ⟨q, hq, hn⟩ := hzn
    exact h1 w hw ⟨q, hwv ▸ hq, hn⟩
  refine ⟨h1, h, h3, ?_, ?_, ?_⟩
  · cases hy : m.pluginon_mm name with
    | none => rfl
    | some y => exact absurd ((hI.onmm_iff name y).mp hy).2 (h3 y ((hI.onmm_iff name y).mp hy).1)
  · simp only [Get, h]
  · simp only [IsOn, h]

/-- C9: in a reachable state, if `IsOn(name)` returns true then `UnRegistryPlugin(name)`
returns nil, logs exactly one hook call, the `Off()` of that entry, and afterwards nothing
bears the name: no element of `plugins` or `pluginons`, no key of `plugin_mm` or
`pluginon_mm`, and `Get` and `IsOn` return the not-found error. If `IsOn(name)` returns false
(registered, off) the same holds and no hook call is logged. -/
theorem UnRegistryPlugin_registered (m : PluginManage) (hm : Reachable m) (name : String) :
    (IsOn name m = .ok (true, none) →
      ∃ x m', m.plugin_mm name = some x ∧ UnRegistryPlugin name m = .ok (none, m') ∧
        m'.hooks = m.hooks ++ [.Off x.Value] ∧ x ∉ m'.plugins ∧ Forgotten name m') ∧
    (IsOn name m = .ok (false, none) →
      ∃ x m', m.plugin_mm name = some x ∧ UnRegistryPlugin name m = .ok (none, m') ∧
        m'.hooks = m.hooks ∧ x ∉ m'.plugins ∧ Forgotten name m') := by
  have hI := hm.inv
  have hgone : ∀ r m', UnRegistryPlugin name m = .ok (r, m') → Inv m' := by
    intro r m' h
    obtain ⟨r2, m2, h2, hI2⟩ := UnRegistryPlugin_keeps_Inv hI name
    rw [h] at h2
    cases h2
    exact hI2
  have hnot : ∀ x, x ∉ m.plugins.erase x := fun x hx =>
    (hI.plugins_nodup.mem_erase_iff.mp hx).1 rfl
  constructor
  · intro hon
    cases hx : m.plugin_mm name with
    | none => simp [IsOn, hx] at hon
    | some x =>
      obtain ⟨e, he, hn, hmem, h⟩ := UnRegistryPlugin_eq hI hx
      rcases h with ⟨hs, -⟩ | ⟨-, y, -, -, hrun⟩
      · simp [IsOn, hx, he, hs] at hon
      · exact ⟨x, _, rfl, hrun, rfl, hnot x,
          Forgotten_of_unregistered (hgone _ _ hrun) (by simp [ElMap.delete])⟩
  · intro hon
    cases hx : m.plugin_mm name with
    | none => simp [IsOn, hx] at hon
    | some x =>
      obtain ⟨e, he, hn, hmem, h⟩ := UnRegistryPlugin_eq hI hx
      rcases h with ⟨-, hrun⟩ | ⟨hs, -⟩
      · exact ⟨x, _, rfl, hrun, rfl, hnot x,
          Forgotten_of_unregistered (hgone _ _ hrun) (by simp [ElMap.delete])⟩
      · simp [IsOn, hx, he, hs] at hon

theorem UnRegistryPlugin_registered_witness :
    Reachable (stateOf callsABonOff) ∧
    IsOn "A" (stateOf callsABonOff) = .ok (true, none) ∧
    IsOn "B" (stateOf callsABonOff) = .ok (false, none) ∧
    (∃ x m', (stateOf callsABonOff).plugin_mm "A" = some x ∧
      UnRegistryPlugin "A" (stateOf callsABonOff) = .ok (none, m') ∧
      m'.hooks = (stateOf callsABonOff).hooks ++ [.Off x.Value] ∧
      x ∉ m'.plugins ∧ Forgotten "A" m') ∧
    (∃ x m', (stateOf callsABonOff).plugin_mm "B" = some x ∧
      UnRegistryPlugin "B" (stateOf callsABonOff) = .ok (none, m') ∧
      m'.hooks = (stateOf callsABonOff).hooks ∧
      x ∉ m'.plugins ∧ Forgotten "B" m') :=
  ⟨⟨callsABonOff, rfl⟩, rfl, rfl,
    (UnRegistryPlugin_registered (stateOf callsABonOff)
      ⟨callsABonOff, rfl⟩ "A").1 rfl,
    (UnRegistryPlugin_registered (stateOf callsABonOff)
      ⟨callsABonOff, rfl⟩ "B").2 rfl⟩

/-! ## `On()` -/

/-- The outcome of `On()` on a state that satisfies the invariant. -/
theorem On_walk (o : Oracle) {m : PluginManage} (hI : Inv m) :
    ∃ r m', On o m = .ok (r, m') ∧ Inv m' ∧
      ((r = none ∧ Walked m m.plugins m') ∨
       ∃ d e rest q err m2, m.plugins = d ++ e :: rest ∧ Walked m d m2 ∧
         m.heap[e.Value]? = some q ∧ q.status = .StatusOff ∧
         o m2.hooks q.plugin = some err ∧ r = some (onFailMsg q.name err) ∧
         m' = { m2 with hooks := m2.hooks ++ [.On e.Value (some err)] }) := by
  obtain ⟨r, m', hrun, hI', h⟩ := OnLoop_walk o hI m.plugins [] m (m.plugins.length + 1) hI
    (Walked.refl m) rfl (Nat.lt_succ_self _)
  refine ⟨r, m', hrun, hI', ?_⟩
  simpa using h

/-- The entries of the elements of `plugins` are pairwise different. -/
theorem Inv.split_values {m : PluginManage} (hI : Inv m) {d rest : List Element} {e : Element}
    (hp : m.plugins = d ++ e :: rest) :
    (∀ x ∈ d, x.Value ≠ e.Value) ∧ (∀ x ∈ rest, x.Value ≠ e.Value) ∧
      ∀ x ∈ d, ∀ z ∈ rest, x.Value ≠ z.Value := by
  have hnd : (d ++ e :: rest).Nodup := hp ▸ hI.plugins_nodup
  have hd : ∀ x ∈ d, x ∈ m.plugins := fun x hx => hp ▸ List.mem_append_left _ hx
  have hr : ∀ x ∈ rest, x ∈ m.plugins := fun x hx =>
    hp ▸ List.mem_append_right _ (List.mem_cons_of_mem _ hx)
  have he : e ∈ m.plugins := hp ▸ List.mem_append_right _ (List.mem_cons_self _ _)
  obtain ⟨-, hnd2, hdis⟩ := List.nodup_append.mp hnd
  refine ⟨?_, ?_, ?_⟩
  · intro x hx hv
    have := hI.value_inj (hd x hx) he hv
    subst this
    exact hdis hx (List.mem_cons_self _ _)
  · intro x hx hv
    have := hI.value_inj (hr x hx) he hv
    subst this
    exact (List.nodup_cons.mp hnd2).1 hx
  · intro x hx z hz hv
    have := hI.value_inj (hd x hx) (hr z hz) hv
    subst this
    exact hdis hx (List.mem_cons_of_mem _ hz)

/-- C3: in a reachable state, under any plugin behaviour, if `On()` returns an error then
`plugins` splits as `d ++ e :: rest` where the entry of `e` was off, the hook calls made are
the successful `On()` of the entries of `d` that were off, in order, followed by the failing
`On()` of `e`; afterwards every entry of `d` is on, the entry of `e` is unchanged (off) and no
element of `pluginons` points to it, the entries of `rest` are unchanged and none of their
hooks was called, and the message is the start-failure text with the name of `e` and the
error text of the hook. -/
theorem On_failure (o : Oracle) (m : PluginManage) (hm : Reachable m) (msg : String)
    (m' : PluginManage) (h : On o m = .ok (some msg, m')) :
    ∃ d e rest q err, m.plugins = d ++ e :: rest ∧ m'.plugins = m.plugins ∧
      m.heap[e.Value]? = some q ∧ q.status = .StatusOff ∧
      o (m.hooks ++ (offEls m d).map onOk) q.plugin = some err ∧
      m'.hooks = m.hooks ++ failedWalk m d e err ∧
      msg = onFailMsg q.name err ∧ msgContains msg q.name ∧ msgContains msg err ∧
      (∀ x ∈ d, isOnEl m' x) ∧
      m'.heap[e.Value]? = some q ∧ (∀ y ∈ m'.pluginons, y.Value ≠ e.Value) ∧
      (∀ x ∈ rest, m'.heap[x.Value]? = m.heap[x.Value]? ∧
        ∀ res, HookEvent.On x.Value res ∉ failedWalk m d e err) := by
  have hI := hm.inv
  obtain ⟨r, m2, hrun, hI', hres⟩ := On_walk o hI
  rw [h] at hrun
  cases hrun
  rcases hres with ⟨hr, -⟩ | ⟨d, e, rest, q, err, m2, hp, hw, hq, hs, ho, hr, hm'⟩
  · cases hr
  · cases hr
    obtain ⟨hde, hre, hdr⟩ := hI.split_values hp
    have hq' : m'.heap[e.Value]? = some q := by
      rw [hm']
      exact (hw.frame _ hde).trans hq
    refine ⟨d, e, rest, q, err, hp, ?_, hq, hs, ?_, ?_, rfl, onFailMsg_contains_name _ _,
      onFailMsg_contains_err _ _, ?_, hq', ?_, ?_⟩
    · rw [hm']
      exact hw.plugins_eq
    · rw [← hw.hooks_eq]
      exact ho
    · rw [hm']
      show m2.hooks ++ _ = _
      rw [hw.hooks_eq, failedWalk, List.append_assoc]
    · intro x hx
      rw [hm']
      exact hw.all_on x hx
    · intro y hy hv
      obtain ⟨-, qy, hqy, hsy⟩ := hI'.ons_on y hy
      rw [hv, hq'] at hqy
      cases hqy
      rw [hs] at hsy
      cases hsy
    · intro x hx
      constructor
      · rw [hm']
        exact hw.frame _ fun z hz => hdr z hz x hx
      · intro res hmem
        rcases List.mem_append.mp hmem with h1 | h1
        · obtain ⟨z, hz, hzx⟩ := List.mem_map.mp h1
          have hzd : z ∈ d := (List.mem_filter.mp hz).1
          simp only [onOk, HookEvent.On.injEq] at hzx
          exact hdr z hzd x hx hzx.1
        · simp only [List.mem_singleton, HookEvent.On.injEq] at h1
          exact hre x hx h1.1

theorem On_failure_witness :
    Reachable (stateOf callsABC) ∧
    On (failOracle 2 "boom") (stateOf callsABC)
      = .ok (some (onFailMsg "B" "boom"), stateOf callsABCfail) ∧
    IsOn "A" (stateOf callsABCfail) = .ok (true, none) ∧
    IsOn "B" (stateOf callsABCfail) = .ok (false, none) ∧
    IsOn "C" (stateOf callsABCfail) = .ok (false, none) ∧
    ∃ d e rest q err, (stateOf callsABC).plugins = d ++ e :: rest ∧
      (stateOf callsABCfail).plugins = (stateOf callsABC).plugins ∧
      (stateOf callsABC).heap[e.Value]? = some q ∧ q.status = .StatusOff ∧
      failOracle 2 "boom" ((stateOf callsABC).hooks ++
        (offEls (stateOf callsABC) d).map onOk) q.plugin = some err ∧
      (stateOf callsABCfail).hooks
        = (stateOf callsABC).hooks ++ failedWalk (stateOf callsABC) d e err ∧
      onFailMsg "B" "boom" = onFailMsg q.name err ∧
      msgContains (onFailMsg "B" "boom") q.name ∧ msgContains (onFailMsg "B" "boom") err ∧
      (∀ x ∈ d, isOnEl (stateOf callsABCfail) x) ∧
      (stateOf callsABCfail).heap[e.Value]? = some q ∧
      (∀ y ∈ (stateOf callsABCfail).pluginons, y.Value ≠ e.Value) ∧
      (∀ x ∈ rest, (stateOf callsABCfail).heap[x.Value]? = (stateOf callsABC).heap[x.Value]? ∧
        ∀ res, HookEvent.On x.Value res ∉ failedWalk (stateOf callsABC) d e err) :=
  ⟨⟨callsABC, rfl⟩, rfl, rfl, rfl, rfl,
    On_failure (failOracle 2 "boom") (stateOf callsABC) ⟨callsABC, rfl⟩
      (onFailMsg "B" "boom") (stateOf callsABCfail) rfl⟩

/-- C4: in a reachable state, if the `On()` hook of every registered entry that is off
succeeds when it is called after the successful calls for the off entries before it, then
`On()` returns nil, `plugins` is unchanged and all its entries are on, the hook calls made
are the `On()` of the entries that were off, in registration order, and `pluginons` is the old
list followed by new elements pointing to those entries in that order. -/
theorem On_success (o : Oracle) (m : PluginManage) (hm : Reachable m)
    (hok : ∀ d e rest q, m.plugins = d ++ e :: rest → m.heap[e.Value]? = some q →
      q.status = .StatusOff → o (m.hooks ++ (offEls m d).map onOk) q.plugin = none) :
    ∃ m', On o m = .ok (none, m') ∧ m'.plugins = m.plugins ∧
      (∀ x ∈ m'.plugins, isOnEl m' x) ∧
      m'.hooks = m.hooks ++ (offEls m m.plugins).map onOk ∧
      ∃ news, m'.pluginons = m.pluginons ++ news ∧
        news.map Element.Value = (offEls m m.plugins).map Element.Value := by
  have hI := hm.inv
  obtain ⟨r, m', hrun, -, hres⟩ := On_walk o hI
  rcases hres with ⟨hr, hw⟩ | ⟨d, e, rest, q, err, m2, hp, hw, hq, hs, ho, -, -⟩
  · subst hr
    exact ⟨m', hrun, hw.plugins_eq, hw.plugins_eq ▸ hw.all_on, hw.hooks_eq, hw.ons_eq⟩
  · rw [hw.hooks_eq, hok d e rest q hp hq hs] at ho
    cases ho

theorem On_success_witness :
    Reachable (stateOf callsABCfail) ∧
    (∀ d e rest q, (stateOf callsABCfail).plugins = d ++ e :: rest →
      (stateOf callsABCfail).heap[e.Value]? = some q → q.status = .StatusOff →
      okOracle ((stateOf callsABCfail).hooks ++
        (offEls (stateOf callsABCfail) d).map onOk) q.plugin = none) ∧
    offEls (stateOf callsABCfail) (stateOf callsABCfail).plugins
      = [{ addr := 1, Value := 1 }, { addr := 2, Value := 2 }] ∧
    ∃ m', On okOracle (stateOf callsABCfail) = .ok (none, m') ∧
      m'.plugins = (stateOf callsABCfail).plugins ∧
      (∀ x ∈ m'.plugins, isOnEl m' x) ∧
      m'.hooks = (stateOf callsABCfail).hooks ++
        (offEls (stateOf callsABCfail) (stateOf callsABCfail).plugins).map onOk ∧
      ∃ news, m'.pluginons = (stateOf callsABCfail).pluginons ++ news ∧
        news.map Element.Value
          = (offEls (stateOf callsABCfail) (stateOf callsABCfail).plugins).map Element.Value :=
  ⟨⟨callsABCfail, rfl⟩, fun _ _ _ _ _ _ _ => rfl, rfl,
    On_success okOracle (stateOf callsABCfail) ⟨callsABCfail, rfl⟩
      (fun _ _ _ _ _ _ _ => rfl)⟩

/-! ## What one call of `Off()` does -/

/-- Removing an element that occurs once leaves the elements before and after it. -/
theorem erase_mid {l pre post : List Element} {x : Element} (hn : l.Nodup)
    (hl : l = pre ++ x :: post) : l.erase x = pre ++ post := by
  subst hl
  have hx : x ∉ pre := fun h =>
    (List.nodup_append.mp hn).2.2 h (List.mem_cons_self _ _)
  rw [List.erase_append_right _ hx, List.erase_cons_head]

/-- C19: in a reachable state whose `pluginons` is `init ++ [y]`, one call of `Off()` logs
exactly one hook call, the `Off()` of the entry of `y`, sets that entry to off and no other
entry, and leaves `pluginons` equal to `init` with all its entries still on; `plugins` and
`plugin_mm` are untouched. With an empty `pluginons` the call returns the same state, so no
hook is logged and nothing changes. -/
theorem Off_back_only (m : PluginManage) (hm : Reachable m) :
    (m.pluginons = [] → Off m = .ok m) ∧
    (∀ init y, m.pluginons = init ++ [y] →
      ∃ e m', m.heap[y.Value]? = some e ∧ e.status = .StatusOn ∧ Off m = .ok m' ∧
        m'.hooks = m.hooks ++ [.Off y.Value] ∧
        m'.pluginons = init ∧
        m'.heap[y.Value]? = some { e with status := .StatusOff } ∧
        (∀ i, i ≠ y.Value → m'.heap[i]? = m.heap[i]?) ∧
        (∀ z ∈ init, isOnEl m' z) ∧
        m'.plugins = m.plugins ∧ m'.plugin_mm = m.plugin_mm ∧
        m'.pluginon_mm = m.pluginon_mm.delete e.name) := by
  have hI := hm.inv
  constructor
  · intro h0
    rw [Off_eq hI, h0]
    rfl
  · intro init y hl
    have hy : y ∈ m.pluginons := by
      rw [hl]
      exact List.mem_append_right _ (List.mem_singleton_self _)
    obtain ⟨e, he, hs, hoff⟩ := off_eq hI hy
    have hlast : m.pluginons.getLast? = some y := by
      rw [hl]
      simp
    have hrun : Off m = off y.Value m := by
      rw [Off_eq hI, hlast]
    rw [hoff] at hrun
    refine ⟨e, _, he, hs, hrun, rfl, ?_, lookup_set_self _ _ _ _ he,
      fun i hi => lookup_set_other _ _ _ _ hi, ?_, rfl, rfl, rfl⟩
    · show m.pluginons.erase y = init
      rw [erase_mid hI.ons_nodup hl, List.append_nil]
    · intro z hz
      have hzm : z ∈ m.pluginons := by
        rw [hl]
        exact List.mem_append_left _ hz
      obtain ⟨-, q, hq, hsq⟩ := hI.ons_on z hzm
      have hne : z.Value ≠ y.Value := by
        intro hv
        have hzy := hI.on_value_inj hzm hy hv
        subst hzy
        have hnd : (init ++ [z]).Nodup := hl ▸ hI.ons_nodup
        exact (List.nodup_append.mp hnd).2.2 hz (List.mem_singleton_self _)
      refine ⟨q, ?_, hsq⟩
      show (m.heap.set y.Value _)[z.Value]? = some q
      rw [lookup_set_other _ _ _ _ hne, hq]

theorem Off_back_only_witness :
    Reachable (stateOf callsABCon) ∧
    (stateOf callsABCon).pluginons
      = [{ addr := 3, Value := 0 }, { addr := 4, Value := 1 }] ++ [{ addr := 5, Value := 2 }] ∧
    Reachable New ∧ New.pluginons = [] ∧ Off New = .ok New ∧
    ∃ e m', (stateOf callsABCon).heap[2]? = some e ∧ e.status = .StatusOn ∧
      Off (stateOf callsABCon) = .ok m' ∧
      m'.hooks = (stateOf callsABCon).hooks ++ [.Off 2] ∧
      m'.pluginons = [{ addr := 3, Value := 0 }, { addr := 4, Value := 1 }] ∧
      m'.heap[2]? = some { e with status := .StatusOff } ∧
      (∀ i, i ≠ 2 → m'.heap[i]? = (stateOf callsABCon).heap[i]?) ∧
      (∀ z ∈ [({ addr := 3, Value := 0 } : Element), { addr := 4, Value := 1 }], isOnEl m' z) ∧
      m'.plugins = (stateOf callsABCon).plugins ∧
      m'.plugin_mm = (stateOf callsABCon).plugin_mm ∧
      m'.pluginon_mm = (stateOf callsABCon).pluginon_mm.delete e.name :=
  ⟨⟨callsABCon, rfl⟩, rfl, ⟨[], rfl⟩, rfl, (Off_back_only New ⟨[], rfl⟩).1 rfl,
    (Off_back_only (stateOf callsABCon) ⟨callsABCon, rfl⟩).2
      [{ addr := 3, Value := 0 }, { addr := 4, Value := 1 }] { addr := 5, Value := 2 } rfl⟩

/-! ## What `UnRegistryPlugin` leaves alone -/

/-- C18: in a reachable state, `UnRegistryPlugin` of a registered name returns nil; `plugins`
afterwards is the old list with exactly the element of that name taken out, the others in
their order; every other entry of the heap keeps its name, plugin and status; the other keys
of both indices keep their elements; and `pluginons` is the old list with the element that
points to the entry taken out, or the old list itself when no element points to it. -/
theorem UnRegistryPlugin_frame (m : PluginManage) (hm : Reachable m) (name : String)
    (x : Element) (hx : m.plugin_mm name = some x) :
    ∃ m' pre post, UnRegistryPlugin name m = .ok (none, m') ∧
      m.plugins = pre ++ x :: post ∧ m'.plugins = pre ++ post ∧
      (∀ i, i ≠ x.Value → m'.heap[i]? = m.heap[i]?) ∧
      (∀ k, k ≠ name → m'.plugin_mm k = m.plugin_mm k ∧ m'.pluginon_mm k = m.pluginon_mm k) ∧
      (((∀ y ∈ m.pluginons, y.Value ≠ x.Value) ∧ m'.pluginons = m.pluginons) ∨
       ∃ ypre y ypost, y.Value = x.Value ∧ m.pluginons = ypre ++ y :: ypost ∧
         m'.pluginons = ypre ++ ypost) := by
  have hI := hm.inv
  obtain ⟨e, he, hn, hmem, h⟩ := UnRegistryPlugin_eq hI hx
  obtain ⟨pre, post, hp⟩ := List.append_of_mem hmem
  have hdel : ∀ (mm : ElMap) k, k ≠ name → mm.delete name k = mm k := by
    intro mm k hk
    simp [ElMap.delete, hk]
  rcases h with ⟨hs, hrun⟩ | ⟨hs, y, hy, hv, hrun⟩
  · refine ⟨_, pre, post, hrun, hp, erase_mid hI.plugins_nodup hp, fun _ _ => rfl,
      fun k hk => ⟨hdel _ k hk, rfl⟩, Or.inl ⟨?_, rfl⟩⟩
    intro y hy hv
    obtain ⟨-, q, hq, hsq⟩ := hI.ons_on y hy
    rw [hv, he] at hq
    cases hq
    rw [hs] at hsq
    cases hsq
  · obtain ⟨ypre, ypost, hyp⟩ := List.append_of_mem hy
    exact ⟨_, pre, post, hrun, hp, erase_mid hI.plugins_nodup hp,
      fun i hi => lookup_set_other _ _ _ _ hi,
      fun k hk => ⟨hdel _ k hk, hdel _ k hk⟩,
      Or.inr ⟨ypre, y, ypost, hv, hyp, erase_mid hI.ons_nodup hyp⟩⟩

theorem UnRegistryPlugin_frame_witness :
    Reachable (stateOf callsABCon) ∧
    (stateOf callsABCon).plugin_mm "B" = some { addr := 1, Value := 1 } ∧
    ∃ m' pre post, UnRegistryPlugin "B" (stateOf callsABCon) = .ok (none, m') ∧
      (stateOf callsABCon).plugins = pre ++ { addr := 1, Value := 1 } :: post ∧
      m'.plugins = pre ++ post ∧
      (∀ i, i ≠ 1 → m'.heap[i]? = (stateOf callsABCon).heap[i]?) ∧
      (∀ k, k ≠ "B" → m'.plugin_mm k = (stateOf callsABCon).plugin_mm k ∧
        m'.pluginon_mm k = (stateOf callsABCon).pluginon_mm k) ∧
      (((∀ y ∈ (stateOf callsABCon).pluginons, y.Value ≠ 1) ∧
          m'.pluginons = (stateOf callsABCon).pluginons) ∨
       ∃ ypre y ypost, y.Value = 1 ∧ (stateOf callsABCon).pluginons = ypre ++ y :: ypost ∧
         m'.pluginons = ypre ++ ypost) :=
  ⟨⟨callsABCon, rfl⟩, rfl,
    UnRegistryPlugin_frame (stateOf callsABCon) ⟨callsABCon, rfl⟩ "B"
      { addr := 1, Value := 1 } rfl⟩

/-! ## The two indices agree -/

/-- C12: in a reachable state every key of `pluginon_mm` is a key of `plugin_mm`, the two
elements are in `pluginons` and in `plugins`, and they point to the same entry. -/
theorem activation_index_registered (m : PluginManage) (hm : Reachable m) (name : String)
    (y : Element) (hy : m.pluginon_mm name = some y) :
    ∃ x, m.plugin_mm name = some x ∧ x ∈ m.plugins ∧ y ∈ m.pluginons ∧
      x.Value = y.Value ∧ hasName m x name := by
  have hI := hm.inv
  obtain ⟨hmem, q, hq, hn⟩ := (hI.onmm_iff name y).mp hy
  obtain ⟨⟨x, hxm, hv⟩, -⟩ := hI.ons_on y hmem
  have hxn : hasName m x name := ⟨q, hv ▸ hq, hn⟩
  exact ⟨x, (hI.mm_iff name x).mpr ⟨hxm, hxn⟩, hxm, hmem, hv, hxn⟩

theorem activation_index_registered_witness :
    Reachable (stateOf callsABCon) ∧
    (stateOf callsABCon).pluginon_mm "B" = some { addr := 4, Value := 1 } ∧
    ∃ x, (stateOf callsABCon).plugin_mm "B" = some x ∧ x ∈ (stateOf callsABCon).plugins ∧
      ({ addr := 4, Value := 1 } : Element) ∈ (stateOf callsABCon).pluginons ∧
      x.Value = ({ addr := 4, Value := 1 } : Element).Value ∧
      hasName (stateOf callsABCon) x "B" :=
  ⟨⟨callsABCon, rfl⟩, rfl,
    activation_index_registered (stateOf callsABCon) ⟨callsABCon, rfl⟩ "B"
      { addr := 4, Value := 1 } rfl⟩

/-! ## `On()` when everything is on -/

/-- The loop of `On()` walks over entries that are on without touching the state. -/
theorem OnLoop_all_on (o : Oracle) {m : PluginManage} (hn : m.plugins.Nodup) :
    ∀ (els done : List Element) (fuel : Nat), m.plugins = done ++ els →
      (∀ x ∈ els, isOnEl m x) → els.length < fuel →
      OnLoop o fuel els.head? m = .ok (none, m) := by
  intro els
  induction els with
  | nil =>
    intro done fuel _ _ hf
    obtain ⟨k, rfl⟩ : ∃ k, fuel = k + 1 := ⟨fuel - 1, by simp at hf; omega⟩
    rfl
  | cons e rest ih =>
    intro done fuel hp hall hf
    obtain ⟨k, rfl⟩ : ∃ k, fuel = k + 1 := ⟨fuel - 1, by simp at hf; omega⟩
    obtain ⟨q, hq, hs⟩ := hall e (List.mem_cons_self _ _)
    simp only [List.head?_cons, OnLoop, hq, hs]
    rw [if_neg (by decide), Next_registered hp hn]
    exact ih (done ++ [e]) k (by simp [hp])
      (fun x hx => hall x (List.mem_cons_of_mem _ hx)) (by simpa using hf)

/-- C14: in a reachable state in which every registered entry is on, `On()` returns nil and
the very same state, under any plugin behaviour: no hook is logged, and the lists, the
indices and the entries are untouched. -/
theorem On_idempotent (o : Oracle) (m : PluginManage) (hm : Reachable m)
    (hall : ∀ x ∈ m.plugins, isOnEl m x) : On o m = .ok (none, m) :=
  OnLoop_all_on o hm.inv.plugins_nodup m.plugins [] (m.plugins.length + 1) rfl hall
    (Nat.lt_succ_self _)

theorem On_idempotent_witness :
    Reachable (stateOf callsABCon) ∧
    (∀ x ∈ (stateOf callsABCon).plugins, isOnEl (stateOf callsABCon) x) ∧
    On (failOracle 2 "boom") (stateOf callsABCon) = .ok (none, stateOf callsABCon) :=
  have hall : ∀ x ∈ (stateOf callsABCon).plugins, isOnEl (stateOf callsABCon) x := by
    intro x hx
    have hx' : x ∈ [({ addr := 0, Value := 0 } : Element), { addr := 1, Value := 1 },
        { addr := 2, Value := 2 }] := hx
    simp only [List.mem_cons, List.mem_singleton, List.not_mem_nil, or_false] at hx'
    rcases hx' with h | h | h <;> subst h <;> exact ⟨_, rfl, rfl⟩
  ⟨⟨callsABCon, rfl⟩, hall,
    On_idempotent (failOracle 2 "boom") (stateOf callsABCon) ⟨callsABCon, rfl⟩ hall⟩

/-! ## The order of the two removals in `UnRegistryPlugin` -/

/-- C17, as stated, fails: when `UnRegistryPlugin("A")` is called with `A` on, the registry
at the moment the hook `Off()` is called has no key `A` in `plugin_mm` any more, and the
element of `A` has left `plugins`. -/
theorem UnRegistryPlugin_unregisters_before_Off :
    IsOn "A" (stateOf callsABon) = .ok (true, none) ∧
    (stateOf callsABon).plugin_mm "A" = some { addr := 0, Value := 0 } ∧
    ∃ S, UnRegistryPlugin_atOff "A" (stateOf callsABon) = .ok (some S) ∧
      S.plugin_mm "A" = none ∧ S.plugins = [{ addr := 2, Value := 1 }] :=
  ⟨rfl, rfl, _, rfl, rfl, rfl⟩

/-- C17, amended: in a reachable state, when `IsOn(name)` is true, `UnRegistryPlugin(name)`
first removes the element from `plugins` and the name from `plugin_mm`, then runs the
deactivation sequence. At the moment the hook `Off()` is called no hook call of this method
has been logged, the name is a key of neither index, no element of either list points to the
entry, and the entry is off; the method returns nil with that state and the one hook call. -/
theorem UnRegistryPlugin_Off_after_removal (m : PluginManage) (hm : Reachable m)
    (name : String) (hon : IsOn name m = .ok (true, none)) :
    ∃ x S, m.plugin_mm name = some x ∧ UnRegistryPlugin_atOff name m = .ok (some S) ∧
      S.hooks = m.hooks ∧
      S.plugin_mm name = none ∧ x ∉ S.plugins ∧
      S.pluginon_mm name = none ∧ (∀ y ∈ S.pluginons, y.Value ≠ x.Value) ∧
      (∃ q, S.heap[x.Value]? = some q ∧ q.status = .StatusOff) ∧
      UnRegistryPlugin name m = .ok (none, { S with hooks := S.hooks ++ [.Off x.Value] }) := by
  have hI := hm.inv
  cases hx : m.plugin_mm name with
  | none => simp [IsOn, hx] at hon
  | some x =>
    obtain ⟨hmem, e, he, hn⟩ := (hI.mm_iff name x).mp hx
    have hs : e.status = .StatusOn := by
      simpa [IsOn, hx, he] using hon
    obtain ⟨y, hy, hv⟩ := hI.on_ons x hmem ⟨e, he, hs⟩
    subst hn
    have hmm := (hI.onmm_iff e.name y).mpr ⟨hy, e, hv ▸ he, rfl⟩
    have hat : UnRegistryPlugin_atOff e.name m = .ok (some
        { m with
          plugins := m.plugins.erase x
          plugin_mm := m.plugin_mm.delete e.name
          pluginons := m.pluginons.erase y
          pluginon_mm := m.pluginon_mm.delete e.name
          heap := m.heap.set x.Value { e with status := .StatusOff } }) := by
      simp [UnRegistryPlugin_atOff, hx, he, hs, offBefore, hmm]
    refine ⟨x, _, rfl, hat, rfl, by simp [ElMap.delete], ?_, by simp [ElMap.delete], ?_,
      ⟨_, lookup_set_self _ _ _ _ he, rfl⟩, ?_⟩
    · exact fun h => (hI.plugins_nodup.mem_erase_iff.mp h).1 rfl
    · intro z hz hzv
      obtain ⟨hne, hzm⟩ := hI.ons_nodup.mem_erase_iff.mp hz
      exact hne (hI.on_value_inj hzm hy (hzv.trans hv.symm))
    · simp [UnRegistryPlugin, hx, he, hs, off, hmm]

theorem UnRegistryPlugin_Off_after_removal_witness :
    Reachable (stateOf callsABon) ∧ IsOn "A" (stateOf callsABon) = .ok (true, none) ∧
    ∃ x S, (stateOf callsABon).plugin_mm "A" = some x ∧
      UnRegistryPlugin_atOff "A" (stateOf callsABon) = .ok (some S) ∧
      S.hooks = (stateOf callsABon).hooks ∧
      S.plugin_mm "A" = none ∧ x ∉ S.plugins ∧
      S.pluginon_mm "A" = none ∧ (∀ y ∈ S.pluginons, y.Value ≠ x.Value) ∧
      (∃ q, S.heap[x.Value]? = some q ∧ q.status = .StatusOff) ∧
      UnRegistryPlugin "A" (stateOf callsABon)
        = .ok (none, { S with hooks := S.hooks ++ [.Off x.Value] }) :=
  ⟨⟨callsABon, rfl⟩, rfl,
    UnRegistryPlugin_Off_after_removal (stateOf callsABon) ⟨callsABon, rfl⟩ "A" rfl⟩

/-! ## Every call is made of four kinds of steps -/

/-- A property kept by the activation sequence on entries that are off is kept by the loop
of `On()`. -/
theorem OnLoop_induct (o : Oracle) (P : PluginManage → Prop)
    (hon : ∀ m pe q r m', P m → m.heap[pe]? = some q → q.status = .StatusOff →
      on_ o pe m = .ok (r, m') → P m') :
    ∀ (fuel : Nat) (el : Option Element) (m : PluginManage) r m', P m →
      OnLoop o fuel el m = .ok (r, m') → P m' := by
  intro fuel
  induction fuel with
  | zero =>
    intro el m r m' _ h
    simp [OnLoop] at h
  | succ k ih =>
    intro el m r m' hP h
    cases el with
    | none =>
      simp only [OnLoop, Except.ok.injEq, Prod.mk.injEq] at h
      exact h.2 ▸ hP
    | some e =>
      simp only [OnLoop] at h
      cases hq : m.heap[e.Value]? with
      | none => simp [hq] at h
      | some q =>
        simp only [hq] at h
        cases hs : q.status with
        | StatusOn =>
          rw [hs, if_neg (by decide)] at h
          exact ih _ m r m' hP h
        | StatusOff =>
          rw [hs, if_pos rfl] at h
          cases hrun : on_ o e.Value m with
          | error f => simp [hrun] at h
          | ok res =>
            obtain ⟨r1, m1⟩ := res
            have hP1 := hon m e.Value q r1 m1 hP hq hs hrun
            rw [hrun] at h
            cases r1 with
            | some err =>
              simp only [Except.ok.injEq, Prod.mk.injEq] at h
              exact h.2 ▸ hP1
            | none => exact ih _ m1 r m' hP1 h

/-- A property kept by the deactivation sequence on entries that are on is kept by the loop
of `Off()`. -/
theorem OffLoop_induct (P : PluginManage → Prop)
    (hoff : ∀ m pe q m', P m → m.heap[pe]? = some q → q.status = .StatusOn →
      off pe m = .ok m' → P m') :
    ∀ (fuel : Nat) (el : Option Element) (m m' : PluginManage), P m →
      OffLoop fuel el m = .ok m' → P m' := by
  intro fuel
  induction fuel with
  | zero =>
    intro el m m' _ h
    simp [OffLoop] at h
  | succ k ih =>
    intro el m m' hP h
    cases el with
    | none =>
      simp only [OffLoop, Except.ok.injEq] at h
      exact h ▸ hP
    | some e =>
      simp only [OffLoop] at h
      cases hq : m.heap[e.Value]? with
      | none => simp [hq] at h
      | some q =>
        simp only [hq] at h
        cases hs : q.status with
        | StatusOff =>
          rw [hs, if_neg (by decide)] at h
          exact ih _ m m' hP h
        | StatusOn =>
          rw [hs, if_pos rfl] at h
          cases hrun : off e.Value m with
          | error f => simp [hrun] at h
          | ok m1 =>
            rw [hrun] at h
            exact ih _ m1 m' (hoff m e.Value q m1 hP hq hs hrun) h

/-- A property of the state that is kept by the four kinds of steps the methods are made of
(a fresh entry is pushed to `plugins`; the activation sequence runs on an entry that is off;
the deactivation sequence runs on an entry that is on; an element is taken out of `plugins`)
is kept by every call of a public method. -/
theorem exec_induct (P : PluginManage → Prop)
    (hnew : ∀ m name p, P m → m.plugin_mm name = none →
      P { m with
          heap := m.heap ++ [{ name := name, plugin := p, status := .StatusOff }]
          elems := m.elems + 1
          plugins := m.plugins ++ [{ addr := m.elems, Value := m.heap.length }]
          plugin_mm := m.plugin_mm.set name { addr := m.elems, Value := m.heap.length } })
    (hon : ∀ o m pe q r m', P m → m.heap[pe]? = some q → q.status = .StatusOff →
      on_ o pe m = .ok (r, m') → P m')
    (hoff : ∀ m pe q m', P m → m.heap[pe]? = some q → q.status = .StatusOn →
      off pe m = .ok m' → P m')
    (hdel : ∀ m name el q, P m → m.plugin_mm name = some el → m.heap[el.Value]? = some q →
      P { m with
          plugins := m.plugins.erase el
          plugin_mm := m.plugin_mm.delete q.name }) :
    ∀ (c : Call) (m m' : PluginManage), P m → c.exec m = .ok m' → P m' := by
  intro c m m' hP h
  cases c with
  | RegistryPlugin o name p now =>
    simp only [Call.exec, RegistryPlugin] at h
    cases hx : m.plugin_mm name with
    | some x =>
      simp only [hx, Except.map, Except.ok.injEq] at h
      exact h ▸ hP
    | none =>
      have hP1 := hnew m name p hP hx
      simp only [hx] at h
      cases now with
      | false =>
        simp only [Bool.false_eq_true, if_false, Except.map, Except.ok.injEq] at h
        exact h ▸ hP1
      | true =>
        simp only [if_true] at h
        cases hrun : on_ o m.heap.length
            { m with
              heap := m.heap ++ [{ name := name, plugin := p, status := .StatusOff }]
              elems := m.elems + 1
              plugins := m.plugins ++ [{ addr := m.elems, Value := m.heap.length }]
              plugin_mm := m.plugin_mm.set name { addr := m.elems, Value := m.heap.length } }
          with
        | error f => simp [hrun, Except.map] at h
        | ok res =>
          obtain ⟨r1, m1⟩ := res
          have hP2 := hon o _ m.heap.length _ r1 m1 hP1 (heap_fresh_lookup m.heap _) rfl hrun
          rw [hrun] at h
          cases r1 with
          | some err =>
            simp only [Except.map, Except.ok.injEq] at h
            exact h ▸ hP2
          | none =>
            simp only [Except.map, Except.ok.injEq] at h
            exact h ▸ hP2
  | UnRegistryPlugin name =>
    simp only [Call.exec, UnRegistryPlugin] at h
    cases hx : m.plugin_mm name with
    | none =>
      simp only [hx, Except.map, Except.ok.injEq] at h
      exact h ▸ hP
    | some x =>
      simp only [hx] at h
      cases hq : m.heap[x.Value]? with
      | none => simp [hq, Except.map] at h
      | some q =>
        have hP1 := hdel m name x q hP hx hq
        simp only [hq] at h
        cases hs : q.status with
        | StatusOff =>
          rw [hs, if_neg (by decide)] at h
          simp only [Except.map, Except.ok.injEq] at h
          exact h ▸ hP1
        | StatusOn =>
          rw [hs, if_pos rfl] at h
          cases hrun : off x.Value
              { m with
                plugins := m.plugins.erase x
                plugin_mm := m.plugin_mm.delete q.name } with
          | error f => simp [hrun, Except.map] at h
          | ok m1 =>
            have hP2 := hoff _ x.Value q m1 hP1 hq hs hrun
            rw [hrun] at h
            simp only [Except.map, Except.ok.injEq] at h
            exact h ▸ hP2
  | On o =>
    simp only [Call.exec, On] at h
    cases hrun : OnLoop o (m.plugins.length + 1) m.plugins.head? m with
    | error f => simp [hrun, Except.map] at h
    | ok res =>
      obtain ⟨r1, m1⟩ := res
      rw [hrun] at h
      simp only [Except.map, Except.ok.injEq] at h
      exact h ▸ OnLoop_induct o P (hon o) _ _ m r1 m1 hP hrun
  | Off =>
    simp only [Call.exec, Off] at h
    exact OffLoop_induct P hoff _ _ m m' hP h
  | Get name =>
    simp only [Call.exec] at h
    cases hrun : Get name m with
    | error f => simp [hrun, Except.map] at h
    | ok res =>
      rw [hrun] at h
      simp only [Except.map, Except.ok.injEq] at h
      exact h ▸ hP
  | IsOn name =>
    simp only [Call.exec] at h
    cases hrun : IsOn name m with
    | error f => simp [hrun, Except.map] at h
    | ok res =>
      rw [hrun] at h
      simp only [Except.map, Except.ok.injEq] at h
      exact h ▸ hP

/-- A property that holds of `New()` and is kept by the four kinds of steps holds in every
reachable state. -/
theorem run_induct (P : PluginManage → Prop)
    (hstep : ∀ (c : Call) (m m' : PluginManage), P m → c.exec m = .ok m' → P m') :
    ∀ (cs : List Call) (m m' : PluginManage), P m → run cs m = .ok m' → P m'
  | [], m, m', hP, h => by
    simp only [run, Except.ok.injEq] at h
    exact h ▸ hP
  | c :: cs, m, m', hP, h => by
    simp only [run] at h
    cases hc : c.exec m with
    | error f => simp [hc] at h
    | ok m1 =>
      rw [hc] at h
      exact run_induct P hstep cs m1 m' (hstep c m m1 hP hc) h

/-! ## The hook calls on one entry follow its life cycle -/

theorem logRun_append (pe : Nat) : ∀ (l : List HookEvent) (s : Status) (ev : HookEvent),
    logRun pe s (l ++ [ev]) =
      match logRun pe s l with
      | none => none
      | some s1 => logStep pe s1 ev
  | [], s, ev => by
    simp only [List.nil_append, logRun]
    cases logStep pe s ev <;> rfl
  | e :: l, s, ev => by
    simp only [List.cons_append, logRun]
    cases logStep pe s e with
    | none => rfl
    | some s1 => exact logRun_append pe l s1 ev

theorem logRun_split (pe : Nat) : ∀ (l1 : List HookEvent) (s s' : Status) (ev : HookEvent)
    (l2 : List HookEvent), logRun pe s (l1 ++ ev :: l2) = some s' →
    ∃ s1, logRun pe s l1 = some s1 ∧ logStep pe s1 ev ≠ none
  | [], s, s', ev, l2, h => by
    refine ⟨s, rfl, ?_⟩
    intro hn
    simp [logRun, hn] at h
  | e :: l1, s, s', ev, l2, h => by
    simp only [List.cons_append, logRun] at h ⊢
    cases hs : logStep pe s e with
    | none => simp [hs] at h
    | some s1 =>
      rw [hs] at h
      exact logRun_split pe l1 s1 s' ev l2 h

theorem lifecycle_alternates (pe : Nat) : ∀ (log : List HookEvent) (s s' : Status),
    logRun pe s log = some s' →
    alternates (decide (s = .StatusOff)) (lifecycle pe log) = true
  | [], _, _, _ => rfl
  | ev :: log, s, s', h => by
    simp only [logRun] at h
    cases hs : logStep pe s ev with
    | none => simp [hs] at h
    | some s1 =>
      rw [hs] at h
      have ih := lifecycle_alternates pe log s1 s' h
      cases ev with
      | On q res =>
        by_cases hq : q = pe
        · cases s with
          | StatusOn => simp [logStep, hq] at hs
          | StatusOff =>
            cases res with
            | none =>
              simp only [logStep, hq, if_true] at hs
              cases hs
              simpa [lifecycle, hq, alternates] using ih
            | some err =>
              simp only [logStep, hq, if_true] at hs
              cases hs
              simpa [lifecycle] using ih
        · simp only [logStep, hq, if_false] at hs
          cases hs
          cases res <;> simpa [lifecycle, hq] using ih
      | Off q =>
        by_cases hq : q = pe
        · cases s with
          | StatusOff => simp [logStep, hq] at hs
          | StatusOn =>
            simp only [logStep, hq, if_true] at hs
            cases hs
            simpa [lifecycle, hq, alternates] using ih
        · simp only [logStep, hq, if_false] at hs
          cases hs
          simpa [lifecycle, hq] using ih

theorem statusAt_set (m m' : PluginManage) (i : Nat) (e : plugin_entry) (s : Status)
    (he : m.heap[i]? = some e) (hh : m'.heap = m.heap.set i { e with status := s })
    (pe : Nat) : statusAt m' pe = if pe = i then s else statusAt m pe := by
  unfold statusAt
  rw [hh]
  by_cases hp : pe = i
  · subst hp
    rw [lookup_set_self _ _ _ _ he, if_pos rfl]
  · rw [lookup_set_other _ _ _ _ hp, if_neg hp]

theorem statusAt_push (m m' : PluginManage) (name : String) (p : Pluginer)
    (hh : m'.heap = m.heap ++ [{ name := name, plugin := p, status := .StatusOff }])
    (pe : Nat) : statusAt m' pe = statusAt m pe := by
  unfold statusAt
  rw [hh]
  rcases Nat.lt_trichotomy pe m.heap.length with h | h | h
  · rw [List.getElem?_append_left h]
  · subst h
    rw [heap_fresh_lookup, List.getElem?_eq_none (Nat.le_refl _)]
  · rw [List.getElem?_eq_none (by simp; omega), List.getElem?_eq_none (by omega)]

/-- In every reachable state the log of hook calls, read with the life cycle of the entry,
ends in the status the entry has. -/
theorem log_matches_status (m : PluginManage) (hm : Reachable m) :
    ∀ pe, logRun pe .StatusOff m.hooks = some (statusAt m pe) := by
  obtain ⟨cs, hcs⟩ := hm
  refine run_induct (fun m => ∀ pe, logRun pe .StatusOff m.hooks = some (statusAt m pe))
    (exec_induct _ ?_ ?_ ?_ ?_) cs New m ?_ hcs
  · intro m name p hP _ pe
    rw [statusAt_push m _ name p rfl pe]
    exact hP pe
  · intro o m pe q r m' hP hq hs hrun pe'
    rw [on_eq o hq] at hrun
    have hpe : statusAt m pe = .StatusOff := by simp [statusAt, hq, hs]
    cases ho : o m.hooks q.plugin with
    | some err =>
      simp only [ho, Except.ok.injEq, Prod.mk.injEq] at hrun
      obtain ⟨-, rfl⟩ := hrun
      show logRun pe' .StatusOff (m.hooks ++ [_]) = some (statusAt m pe')
      rw [logRun_append, hP pe']
      by_cases hp : pe = pe'
      · subst hp
        simp [logStep, hpe]
      · simp [logStep, hp]
    | none =>
      simp only [ho, Except.ok.injEq, Prod.mk.injEq] at hrun
      obtain ⟨-, rfl⟩ := hrun
      rw [statusAt_set m _ pe q .StatusOn hq rfl pe']
      show logRun pe' .StatusOff (m.hooks ++ [_]) = _
      rw [logRun_append, hP pe']
      by_cases hp : pe = pe'
      · subst hp
        simp [logStep, hpe]
      · simp [logStep, hp, Ne.symm hp]
  · intro m pe q m' hP hq hs hrun pe'
    have hpe : statusAt m pe = .StatusOn := by simp [statusAt, hq, hs]
    simp only [off, hq] at hrun
    cases hmm : m.pluginon_mm q.name with
    | none => simp [hmm] at hrun
    | some el =>
      simp only [hmm, Except.ok.injEq] at hrun
      subst hrun
      rw [statusAt_set m _ pe q .StatusOff hq rfl pe']
      show logRun pe' .StatusOff (m.hooks ++ [_]) = _
      rw [logRun_append, hP pe']
      by_cases hp : pe = pe'
      · subst hp
        simp [logStep, hpe]
      · simp [logStep, hp, Ne.symm hp]
  · intro m name el q hP _ _ pe
    exact hP pe
  · intro pe
    rfl

/-- C15: in every reachable state, for every entry, the log of hook calls is allowed by the
life cycle of the entry and ends in its current status; every `On()` call on the entry, failed
ones included, comes when the calls before it leave the entry off, every `Off()` call when
they leave it on; and the successful `On()` calls and the `Off()` calls on the entry alternate,
starting with a successful `On()`. -/
theorem hook_calls_follow_lifecycle (m : PluginManage) (hm : Reachable m) (pe : Nat) :
    logRun pe .StatusOff m.hooks = some (statusAt m pe) ∧
    (∀ before ev after, m.hooks = before ++ ev :: after →
      ∃ s, logRun pe .StatusOff before = some s ∧
        (∀ res, ev = .On pe res → s = .StatusOff) ∧ (ev = .Off pe → s = .StatusOn)) ∧
    alternates true (lifecycle pe m.hooks) = true := by
  have h := log_matches_status m hm pe
  refine ⟨h, ?_, lifecycle_alternates pe m.hooks .StatusOff _ h⟩
  intro before ev after hsplit
  rw [hsplit] at h
  obtain ⟨s, hs, hstep⟩ := logRun_split pe before _ _ ev after h
  refine ⟨s, hs, ?_, ?_⟩
  · intro res hev
    subst hev
    cases s with
    | StatusOff => rfl
    | StatusOn => simp [logStep] at hstep
  · intro hev
    subst hev
    cases s with
    | StatusOn => rfl
    | StatusOff => simp [logStep] at hstep

theorem hook_calls_follow_lifecycle_witness :
    Reachable (stateOf callsABonOff) ∧
    (stateOf callsABonOff).hooks = [.On 0 none, .On 1 none, .Off 1] ∧
    lifecycle 1 (stateOf callsABonOff).hooks = [true, false] ∧
    logRun 1 .StatusOff (stateOf callsABonOff).hooks = some (statusAt (stateOf callsABonOff) 1) ∧
    (∀ before ev after, (stateOf callsABonOff).hooks = before ++ ev :: after →
      ∃ s, logRun 1 .StatusOff before = some s ∧
        (∀ res, ev = .On 1 res → s = .StatusOff) ∧ (ev = .Off 1 → s = .StatusOn)) ∧
    alternates true (lifecycle 1 (stateOf callsABonOff).hooks) = true :=
  ⟨⟨callsABonOff, rfl⟩, rfl, rfl,
    hook_calls_follow_lifecycle (stateOf callsABonOff) ⟨callsABonOff, rfl⟩ 1⟩

/-! ## The registered names and plugins against the reference model -/

/-- Changing the status of one entry changes no plugin field. -/
theorem regPlugin_set (m m' : PluginManage) (i : Nat) (e : plugin_entry) (s : Status)
    (he : m.heap[i]? = some e) (hh : m'.heap = m.heap.set i { e with status := s })
    (hmm : m'.plugin_mm = m.plugin_mm) : regPlugin m' = regPlugin m := by
  funext k
  unfold regPlugin
  rw [hmm, hh]
  cases m.plugin_mm k with
  | none => rfl
  | some el =>
    by_cases hv : el.Value = i
    · simp only [hv, lookup_set_self _ _ _ _ he, he]
    · simp only [lookup_set_other _ _ _ _ hv]

theorem on_regPlugin (o : Oracle) {m m' : PluginManage} {pe : Nat} {r : Option String}
    (h : on_ o pe m = .ok (r, m')) : regPlugin m' = regPlugin m := by
  cases hq : m.heap[pe]? with
  | none => simp [on_, hq] at h
  | some q =>
    rw [on_eq o hq] at h
    cases ho : o m.hooks q.plugin with
    | some err =>
      simp only [ho, Except.ok.injEq, Prod.mk.injEq] at h
      obtain ⟨-, rfl⟩ := h
      rfl
    | none =>
      simp only [ho, Except.ok.injEq, Prod.mk.injEq] at h
      obtain ⟨-, rfl⟩ := h
      exact regPlugin_set m _ pe q .StatusOn hq rfl rfl

theorem off_regPlugin {m m' : PluginManage} {pe : Nat} (h : off pe m = .ok m') :
    regPlugin m' = regPlugin m := by
  cases hq : m.heap[pe]? with
  | none => simp [off, hq] at h
  | some q =>
    simp only [off, hq] at h
    cases hmm : m.pluginon_mm q.name with
    | none => simp [hmm] at h
    | some el =>
      simp only [hmm, Except.ok.injEq] at h
      subst h
      exact regPlugin_set m _ pe q .StatusOff hq rfl rfl

/-- Under the invariant a name is a key of `plugin_mm` exactly when `regPlugin` finds a
plugin for it. -/
theorem Inv.key_iff {m : PluginManage} (hI : Inv m) (name : String) :
    (∃ x, m.plugin_mm name = some x) ↔ regPlugin m name ≠ none := by
  unfold regPlugin
  constructor
  · rintro ⟨x, hx⟩
    obtain ⟨-, q, hq, -⟩ := (hI.mm_iff name x).mp hx
    simp [hx, hq]
  · intro h
    cases hx : m.plugin_mm name with
    | none => simp [hx] at h
    | some x => exact ⟨x, rfl⟩

/-- One call moves the registered plugins as the reference model says. -/
theorem exec_ref (c : Call) {m : PluginManage} (hI : Inv m) :
    ∃ m', c.exec m = .ok m' ∧ Inv m' ∧ regPlugin m' = refPluginStep (regPlugin m) c := by
  obtain ⟨m', hrun, hI'⟩ := exec_keeps_Inv c hI
  refine ⟨m', hrun, hI', ?_⟩
  cases c with
  | RegistryPlugin o name p now =>
    simp only [Call.exec] at hrun
    cases hx : m.plugin_mm name with
    | some x =>
      rw [duplicate_name_eq o name p now m x hx] at hrun
      simp only [Except.map, Except.ok.injEq] at hrun
      subst hrun
      obtain ⟨-, q, hq, -⟩ := (hI.mm_iff name x).mp hx
      funext k
      by_cases hk : k = name
      · subst hk
        simp [refPluginStep, regPlugin, hx, hq]
      · simp [refPluginStep, hk]
    | none =>
      have hI1 := Inv_register hI name p hx
      have h1 : regPlugin
          { m with
            heap := m.heap ++ [{ name := name, plugin := p, status := .StatusOff }]
            elems := m.elems + 1
            plugins := m.plugins ++ [{ addr := m.elems, Value := m.heap.length }]
            plugin_mm := m.plugin_mm.set name { addr := m.elems, Value := m.heap.length } }
          = refPluginStep (regPlugin m) (.RegistryPlugin o name p now) := by
        funext k
        by_cases hk : k = name
        · subst hk
          simp [refPluginStep, regPlugin, hx, ElMap.set]
        · simp only [refPluginStep, regPlugin, ElMap.set, if_neg hk]
          cases hy : m.plugin_mm k with
          | none => rfl
          | some y =>
            obtain ⟨-, q, hq, -⟩ := (hI.mm_iff k y).mp hy
            simp only [lookup_append_old _ _ _ _ hq, hq]
      simp only [RegistryPlugin, hx] at hrun
      cases now with
      | false =>
        simp only [Bool.false_eq_true, if_false, Except.map, Except.ok.injEq] at hrun
        subst hrun
        exact h1
      | true =>
        simp only [if_true] at hrun
        cases hon : on_ o m.heap.length
            { m with
              heap := m.heap ++ [{ name := name, plugin := p, status := .StatusOff }]
              elems := m.elems + 1
              plugins := m.plugins ++ [{ addr := m.elems, Value := m.heap.length }]
              plugin_mm := m.plugin_mm.set name { addr := m.elems, Value := m.heap.length } }
          with
        | error f => simp [hon, Except.map] at hrun
        | ok res =>
          obtain ⟨r1, m1⟩ := res
          have h2 := on_regPlugin o hon
          rw [hon] at hrun
          cases r1 <;>
            (simp only [Except.map, Except.ok.injEq] at hrun
             subst hrun
             exact h2.trans h1)
  | UnRegistryPlugin name =>
    simp only [Call.exec] at hrun
    cases hx : m.plugin_mm name with
    | none =>
      rw [unknown_name_eq name m hx] at hrun
      simp only [Except.map, Except.ok.injEq] at hrun
      subst hrun
      funext k
      by_cases hk : k = name
      · subst hk
        simp [refPluginStep, regPlugin, hx]
      · simp [refPluginStep, hk]
    | some x =>
      obtain ⟨e, he, hn, hmem, h⟩ := UnRegistryPlugin_eq hI hx
      have hdel : ∀ m1 : PluginManage, m1.plugin_mm = m.plugin_mm.delete name →
          (∀ j, j ≠ x.Value → m1.heap[j]? = m.heap[j]?) →
          (∃ q, m1.heap[x.Value]? = some q ∧ q.plugin = e.plugin) →
          regPlugin m1 = refPluginStep (regPlugin m) (.UnRegistryPlugin name) := by
        intro m1 hmm hfr hself
        funext k
        by_cases hk : k = name
        · subst hk
          simp [refPluginStep, regPlugin, hmm, ElMap.delete]
        · simp only [refPluginStep, regPlugin, hmm, ElMap.delete, if_neg hk]
          cases hy : m.plugin_mm k with
          | none => rfl
          | some y =>
            by_cases hv : y.Value = x.Value
            · obtain ⟨q, hq, hqp⟩ := hself
              simp only [hv, hq, he, hqp]
            · simp only [hfr _ hv]
      rcases h with ⟨-, hrun2⟩ | ⟨-, y, -, -, hrun2⟩
      · rw [hrun2] at hrun
        simp only [Except.map, Except.ok.injEq] at hrun
        subst hrun
        exact hdel _ rfl (fun _ _ => rfl) ⟨e, he, rfl⟩
      · rw [hrun2] at hrun
        simp only [Except.map, Except.ok.injEq] at hrun
        subst hrun
        exact hdel _ rfl (fun j hj => lookup_set_other _ _ _ _ hj)
          ⟨_, lookup_set_self _ _ _ _ he, rfl⟩
  | On o =>
    simp only [Call.exec, On] at hrun
    cases hl : OnLoop o (m.plugins.length + 1) m.plugins.head? m with
    | error f => simp [hl, Except.map] at hrun
    | ok res =>
      obtain ⟨r1, m1⟩ := res
      rw [hl] at hrun
      simp only [Except.map, Except.ok.injEq] at hrun
      subst hrun
      exact OnLoop_induct o (fun m1 => regPlugin m1 = regPlugin m)
        (fun _ _ _ _ _ hP _ _ h => (on_regPlugin o h).trans hP) _ _ m r1 m1 rfl hl
  | Off =>
    simp only [Call.exec, Off] at hrun
    exact OffLoop_induct (fun m1 => regPlugin m1 = regPlugin m)
      (fun _ _ _ _ hP _ _ h => (off_regPlugin h).trans hP) _ _ m m' rfl hrun
  | Get name =>
    simp only [Call.exec] at hrun
    cases hg : Get name m with
    | error f => simp [hg, Except.map] at hrun
    | ok res =>
      rw [hg] at hrun
      simp only [Except.map, Except.ok.injEq] at hrun
      subst hrun
      rfl
  | IsOn name =>
    simp only [Call.exec] at hrun
    cases hg : IsOn name m with
    | error f => simp [hg, Except.map] at hrun
    | ok res =>
      rw [hg] at hrun
      simp only [Except.map, Except.ok.injEq] at hrun
      subst hrun
      rfl

/-- The reference set of names and the reference plugins move together. -/
theorem refNameStep_mem (s : Finset String) (f : String → Option Pluginer)
    (h : ∀ n, n ∈ s ↔ f n ≠ none) (c : Call) :
    ∀ n, n ∈ refNameStep s c ↔ refPluginStep f c n ≠ none := by
  intro n
  cases c with
  | RegistryPlugin o name p now =>
    simp only [refNameStep, refPluginStep]
    by_cases hname : name ∈ s
    · rw [if_pos hname]
      by_cases hn : n = name
      · subst hn
        rw [if_pos rfl]
        have := (h n).mp hname
        cases hf : f n with
        | none => exact absurd hf this
        | some q => simp [hname]
      · rw [if_neg hn]
        exact h n
    · rw [if_neg hname]
      by_cases hn : n = name
      · subst hn
        rw [if_pos rfl]
        cases hf : f n <;> simp
      · rw [if_neg hn, Finset.mem_insert]
        simp [hn, h n]
  | UnRegistryPlugin name =>
    simp only [refNameStep, refPluginStep]
    by_cases hn : n = name
    · subst hn
      rw [if_pos rfl]
      by_cases hname : n ∈ s
      · simp [hname]
      · simp [hname]
    · rw [if_neg hn]
      by_cases hname : name ∈ s
      · rw [if_pos hname, Finset.mem_erase]
        simp [hn, h n]
      · rw [if_neg hname]
        exact h n
  | On o => exact h n
  | Off => exact h n
  | Get name => exact h n
  | IsOn name => exact h n

/-- A sequence of calls returns, keeps the invariant, and moves the registered names and
plugins as the reference model says. -/
theorem run_ref : ∀ (cs : List Call) (m : PluginManage) (s : Finset String)
    (f : String → Option Pluginer), Inv m → (∀ n, n ∈ s ↔ f n ≠ none) → f = regPlugin m →
    ∃ m', run cs m = .ok m' ∧ Inv m' ∧
      (∀ n, n ∈ refNamesFrom s cs ↔ regPlugin m' n ≠ none) ∧
      refPluginFrom f cs = regPlugin m'
  | [], m, s, f, hI, hs, hf => ⟨m, rfl, hI, fun n => hf ▸ hs n, hf⟩
  | c :: cs, m, s, f, hI, hs, hf => by
    obtain ⟨m1, h1, hI1, hreg⟩ := exec_ref c hI
    obtain ⟨m', h', hI', hn', hp'⟩ := run_ref cs m1 (refNameStep s c) (refPluginStep f c) hI1
      (refNameStep_mem s f hs c) (hf ▸ hreg.symm)
    exact ⟨m', by simp [run, h1, h'], hI', hn', hp'⟩

theorem run_ref_New (cs : List Call) :
    ∃ m, run cs New = .ok m ∧ Inv m ∧
      (∀ n, n ∈ refNames cs ↔ regPlugin m n ≠ none) ∧ refPlugin cs = regPlugin m :=
  run_ref cs New ∅ (fun _ => none) Inv_New (by simp) rfl

/-- What `Get` returns, by what `regPlugin` finds. -/
theorem Get_eq_regPlugin {m : PluginManage} (hI : Inv m) (name : String) :
    Get name m =
      match regPlugin m name with
      | some p => .ok (some p, none)
      | none => .ok (none, some (notFoundMsg name)) := by
  unfold Get regPlugin
  cases hx : m.plugin_mm name with
  | none => rfl
  | some x =>
    obtain ⟨-, q, hq, -⟩ := (hI.mm_iff name x).mp hx
    simp only [hq]

/-- C11: after any sequence of calls on a fresh registry (of `RegistryPlugin` and
`UnRegistryPlugin` with any flags and plugin behaviour, and of the other methods, which do
not change the reference set), the calls have all returned, and a name is a key of `plugin_mm`
exactly when it is in the reference set, exactly when an element of `plugins` points to an
entry of that name, and exactly when `Get(name)` succeeds; no two elements of `plugins` point
to entries of the same name. -/
theorem registration_index_matches_names (cs : List Call) :
    ∃ m, run cs New = .ok m ∧
      (∀ name, (∃ x, m.plugin_mm name = some x) ↔ name ∈ refNames cs) ∧
      (∀ name, (∃ x ∈ m.plugins, hasName m x name) ↔ name ∈ refNames cs) ∧
      (∀ x ∈ m.plugins, ∀ y ∈ m.plugins, ∀ name,
        hasName m x name → hasName m y name → x = y) ∧
      m.plugins.Nodup ∧
      (∀ name, (∃ p, Get name m = .ok (some p, none)) ↔ name ∈ refNames cs) ∧
      (∀ name, name ∉ refNames cs → Get name m = .ok (none, some (notFoundMsg name))) := by
  obtain ⟨m, hrun, hI, hn, -⟩ := run_ref_New cs
  have hkey : ∀ name, (∃ x, m.plugin_mm name = some x) ↔ name ∈ refNames cs :=
    fun name => (hI.key_iff name).trans (hn name).symm
  refine ⟨m, hrun, hkey, ?_, ?_, hI.plugins_nodup, ?_, ?_⟩
  · intro name
    rw [← hkey name]
    constructor
    · rintro ⟨x, hx, hxn⟩
      exact ⟨x, (hI.mm_iff name x).mpr ⟨hx, hxn⟩⟩
    · rintro ⟨x, hx⟩
      exact ⟨x, (hI.mm_iff name x).mp hx⟩
  · intro x hx y hy name hxn hyn
    exact hI.name_inj hx hy hxn hyn
  · intro name
    rw [hn name, Get_eq_regPlugin hI name]
    cases regPlugin m name with
    | none => simp
    | some p => simp
  · intro name hname
    have : regPlugin m name = none := by
      by_contra h
      exact hname ((hn name).mpr h)
    rw [Get_eq_regPlugin hI name, this]

/-- C13: after any sequence of calls on a fresh registry, `Get(name)` and `IsOn(name)` return
and leave the state as it is, log of hook calls included. For a name the reference model has
registered with plugin `p`, `Get` returns `p` and no error and `IsOn` returns, with no error,
whether the status of the entry that `plugin_mm` maps the name to is `StatusOn`; for any other
name both return the not-found error, `IsOn` with false. -/
theorem Get_IsOn_read_only (cs : List Call) (name : String) :
    ∃ m, run cs New = .ok m ∧
      (Call.Get name).exec m = .ok m ∧ (Call.IsOn name).exec m = .ok m ∧
      match refPlugin cs name with
      | some p =>
        Get name m = .ok (some p, none) ∧
        ∃ x q, m.plugin_mm name = some x ∧ m.heap[x.Value]? = some q ∧ q.name = name ∧
          q.plugin = p ∧ IsOn name m = .ok (decide (q.status = .StatusOn), none)
      | none =>
        m.plugin_mm name = none ∧
        Get name m = .ok (none, some (notFoundMsg name)) ∧
        IsOn name m = .ok (false, some (notFoundMsg name)) := by
  obtain ⟨m, hrun, hI, -, hp⟩ := run_ref_New cs
  obtain ⟨m1, hg, -⟩ := exec_keeps_Inv (Call.Get name) hI
  obtain ⟨m2, hi, -⟩ := exec_keeps_Inv (Call.IsOn name) hI
  have hg' : (Call.Get name).exec m = .ok m := by
    simp only [Call.exec] at hg ⊢
    cases h : Get name m with
    | error f => simp [h, Except.map] at hg
    | ok r => rfl
  have hi' : (Call.IsOn name).exec m = .ok m := by
    simp only [Call.exec] at hi ⊢
    cases h : IsOn name m with
    | error f => simp [h, Except.map] at hi
    | ok r => rfl
  refine ⟨m, hrun, hg', hi', ?_⟩
  rw [hp]
  cases hx : m.plugin_mm name with
  | none =>
    have hr : regPlugin m name = none := by simp [regPlugin, hx]
    rw [hr]
    exact ⟨rfl, by simp only [Get, hx], by simp only [IsOn, hx]⟩
  | some x =>
    obtain ⟨-, q, hq, hqn⟩ := (hI.mm_iff name x).mp hx
    have hr : regPlugin m name = some q.plugin := by simp [regPlugin, hx, hq]
    rw [hr]
    exact ⟨by simp only [Get, hx, hq], x, q, rfl, hq, hqn, rfl, by simp only [IsOn, hx, hq]⟩

end zplugin
